import Mathlib

/-
Verification of the Trie (prefix tree) container of the haggis library
(src/haggis/structures.py), together with its string/path factory presets.

The Python classes are shallowly embedded as follows.

* `_TrieNode` becomes the inductive `TrieNode`: the `key` and `isleaf`
  slots are carried verbatim; the `suffixes` slot (a dict keyed by the
  children's own `key` attribute, or `None` for an empty node) becomes
  `Option (List (TrieNode K))`, an insertion-ordered association list in
  which each child is looked up by its `key` field, exactly as the dict
  is keyed in the source.  The `parent` back-pointer is not stored: in a
  tree it is determined by the path from the root, so parent-walking
  code (`hierarchy`, the pruning loop of `remove`) is rendered as
  recursion that carries the root-to-node path / performs the upward
  pass on return.  `parent is None` becomes the explicit `isRoot` flag.
* In-place mutation through object references becomes explicit state
  passing: an operation on a child returns the updated child, which is
  written back into the parent's suffix list at the same position
  (`setChild`), mirroring the aliasing of the Python dict entry.
* `Trie` becomes a structure with the `root` node and the `len` counter
  (a Python `int`, hence `Int` here).  The `sorter`/`joiner` policies
  are passed to the traversal functions explicitly; the stored defaults
  of the Python object are just particular arguments.
* Methods returning booleans return `Bool`; methods that mutate return
  the new state paired with the boolean result.
-/

set_option maxHeartbeats 1000000

/-- Embedding of `_TrieNode`: key, leaf flag, and the optional ordered
list of suffix (child) nodes, each identified by its own `key` field. -/
inductive TrieNode (K : Type) : Type where
  | mk (key : K) (isleaf : Bool) (suffixes : Option (List (TrieNode K)))

namespace TrieNode

variable {K : Type}

/-- The `key` slot of a node. -/
def key : TrieNode K → K
  | .mk k _ _ => k

/-- The `isleaf` slot of a node. -/
def isleaf : TrieNode K → Bool
  | .mk _ b _ => b

/-- The `suffixes` slot of a node (`None` encoded as `none`). -/
def suffixes : TrieNode K → Option (List (TrieNode K))
  | .mk _ _ s => s

/-- Embedding of the `isempty` property: `self.suffixes is None`. -/
def isempty (n : TrieNode K) : Bool := n.suffixes.isNone

/-- The children of a node as a list (empty when `suffixes` is `None`).
This is how every dict operation on `suffixes` reads the mapping. -/
def childrenList (n : TrieNode K) : List (TrieNode K) := n.suffixes.getD []

/-- Embedding of `_TrieNode.__bool__`:
`self.isleaf or not self.isempty or self.parent is None`; the
`parent is None` test is the explicit `isRoot` argument here. -/
def boolVal (isRoot : Bool) (n : TrieNode K) : Bool :=
  n.isleaf || !n.isempty || isRoot

/-- Embedding of the `keylist` property: the list of suffix keys
(`[]` when the node is empty). -/
def keylist (n : TrieNode K) : List K := n.childrenList.map key

/-- Lookup of a suffix entry by key: the dict access underlying
`key in self.suffixes` and `self.suffixes[key]`. -/
def findChild [DecidableEq K] (n : TrieNode K) (k : K) : Option (TrieNode K) :=
  n.childrenList.find? (fun c => c.key == k)

/-- Embedding of `_TrieNode.__contains__`:
`False if self.isempty else key in self.suffixes`. -/
def hasChild [DecidableEq K] (n : TrieNode K) (k : K) : Bool :=
  (n.findChild k).isSome

/-- Embedding of `_TrieNode.__getitem__`: retrieve a suffix node,
creating it (a fresh non-leaf node with the given key, appended in
insertion order) if necessary; `self.suffixes` is materialised as an
empty mapping first when the node was empty.  Returns the updated node
together with the retrieved child. -/
def getitem [DecidableEq K] (n : TrieNode K) (k : K) : TrieNode K × TrieNode K :=
  let l := n.childrenList
  match l.find? (fun c => c.key == k) with
  | some c => (.mk n.key n.isleaf (some l), c)
  | none => (.mk n.key n.isleaf (some (l ++ [.mk k false none])), .mk k false none)

/-- Dict assignment `suffixes[k] = c'` on the suffix list: replace the
first entry whose key matches (keys are unique in the source dict),
keeping its position, or append when absent.  This is the write-back of
a mutated child into its parent. -/
def setList [DecidableEq K] : List (TrieNode K) → K → TrieNode K → List (TrieNode K)
  | [], _, c' => [c']
  | c :: cs, k, c' => if c.key == k then c' :: cs else c :: setList cs k c'

/-- Write-back of an updated child node under key `k`. -/
def setChild [DecidableEq K] (n : TrieNode K) (k : K) (c' : TrieNode K) : TrieNode K :=
  .mk n.key n.isleaf (some (setList n.childrenList k c'))

/-- Embedding of `_TrieNode.__delitem__`: missing keys are silently
ignored; if the key is the only entry the whole mapping reverts to
`None`, otherwise the entry is deleted. -/
def delChild [DecidableEq K] (n : TrieNode K) (k : K) : TrieNode K :=
  if n.hasChild k then
    if n.childrenList.length == 1 then .mk n.key n.isleaf none
    else .mk n.key n.isleaf (some (n.childrenList.eraseP (fun c => c.key == k)))
  else n

/-- Embedding of the walk of `Trie.add`: descend through `__getitem__`
(creating missing nodes), then mark the final node as a leaf; returns
`false` (and changes nothing else) when the final node was already a
leaf.  Child updates are written back along the path. -/
def addNode [DecidableEq K] (n : TrieNode K) : List K → TrieNode K × Bool
  | [] => if n.isleaf then (n, false) else (.mk n.key true n.suffixes, true)
  | k :: ks =>
    match n.getitem k with
    | (n1, c) =>
      match c.addNode ks with
      | (c', b) => (n1.setChild k c', b)

/-- Embedding of the walk of `Trie.__contains__`: at each step test
`elem in node`, returning `false` on a miss, otherwise descend through
`node[elem]`; finally report the reached node's `isleaf`.  The state is
threaded exactly as the reference-based Python code does, so that the
absence of mutation is a provable property rather than an assumption. -/
def containsS [DecidableEq K] (n : TrieNode K) : List K → TrieNode K × Bool
  | [] => (n, n.isleaf)
  | k :: ks =>
    if n.hasChild k then
      match n.getitem k with
      | (n1, c) =>
        match c.containsS ks with
        | (c', b) => (n1.setChild k c', b)
    else (n, false)

/-- Embedding of `Trie.remove`: walk down checking `elem not in node`
(returning `false` with no mutation on a miss); at the end, if the node
is a leaf, unmark it and run the bottom-up pruning loop
`while not node: del node.parent[node.key]; node = node.parent`.
In this recursive rendering the loop happens on the way back up:
a return value of `none` means the node deleted itself from its parent
(its truth value `boolVal` was false), and the parent then re-checks
itself after the `delChild`. -/
def removeAux [DecidableEq K] (isRoot : Bool) (n : TrieNode K) : List K → Option (TrieNode K) × Bool
  | [] =>
    if n.isleaf then
      let n' : TrieNode K := .mk n.key false n.suffixes
      if boolVal isRoot n' then (some n', true) else (none, true)
    else (some n, false)
  | k :: ks =>
    if n.hasChild k then
      match n.getitem k with
      | (n1, c) =>
        match removeAux false c ks with
        | (some c', b) => (some (n1.setChild k c'), b)
        | (none, b) =>
          let n' := n1.delChild k
          if boolVal isRoot n' then (some n', b) else (none, b)
    else (some n, false)

end TrieNode

/-- Embedding of the `Trie` class: the root node and the `len` counter
(`sorter`/`joiner` are passed to the traversals explicitly). -/
structure Trie (K : Type) where
  root : TrieNode K
  len : Int

namespace Trie

variable {K : Type}

/-- Embedding of `Trie.__init__`: a fresh trie whose root is a non-leaf
node carrying the user-supplied empty key, with `len = 0`. -/
def mkEmpty (empty : K) : Trie K := ⟨.mk empty false none, 0⟩

/-- Embedding of `Trie.add`. -/
def add [DecidableEq K] (t : Trie K) (item : List K) : Trie K × Bool :=
  match t.root.addNode item with
  | (r, true) => (⟨r, t.len + 1⟩, true)
  | (r, false) => (⟨r, t.len⟩, false)

/-- Embedding of `Trie.remove` (a deleted root cannot happen: the root's
truth value is always true; the `none` branch is dead code). -/
def remove [DecidableEq K] (t : Trie K) (item : List K) : Trie K × Bool :=
  match t.root.removeAux true item with
  | (some r, true) => (⟨r, t.len - 1⟩, true)
  | (some r, false) => (⟨r, t.len⟩, false)
  | (none, b) => (t, b)

/-- Embedding of `Trie.__contains__` (state threaded as in the source). -/
def containsB [DecidableEq K] (t : Trie K) (item : List K) : Trie K × Bool :=
  match t.root.containsS item with
  | (r, b) => (⟨r, t.len⟩, b)

end Trie

/-- One mutating call on a trie, for stating invariants over arbitrary
operation sequences. -/
inductive TrieOp (K : Type) where
  | add (item : List K)
  | remove (item : List K)

namespace Trie

variable {K : Type}

/-- Apply a single `add`/`remove` call, keeping the resulting state. -/
def applyOp [DecidableEq K] (t : Trie K) : TrieOp K → Trie K
  | .add item => (t.add item).1
  | .remove item => (t.remove item).1

/-- Apply a finite sequence of `add`/`remove` calls in order. -/
def applyOps [DecidableEq K] (t : Trie K) (ops : List (TrieOp K)) : Trie K :=
  ops.foldl applyOp t

/-- Add every item of a list in order (used for membership claims). -/
def addAll [DecidableEq K] (t : Trie K) (items : List (List K)) : Trie K :=
  items.foldl (fun t s => (t.add s).1) t

end Trie

namespace TrieNode

variable {K : Type}

mutual

/-- Number of reachable nodes whose `isleaf` flag is true (the spec's
full-traversal leaf count). -/
def countLeaves : TrieNode K → Nat
  | .mk _ b none => if b then 1 else 0
  | .mk _ b (some l) => (if b then 1 else 0) + countLeavesL l

/-- Leaf count summed over a list of nodes. -/
def countLeavesL : List (TrieNode K) → Nat
  | [] => 0
  | c :: cs => countLeaves c + countLeavesL cs

end

/-- The suffix keys of a sibling list are pairwise distinct (always true
of the Python dict, which cannot hold a key twice). -/
def keysNodup [DecidableEq K] : List (TrieNode K) → Bool
  | [] => true
  | c :: cs => !(cs.any (fun d => d.key == c.key)) && keysNodup cs

mutual

/-- Well-formedness of the dict encoding: a materialised suffix mapping
is never empty (the source turns it back into `None`), and sibling keys
are distinct.  Every state reachable in the Python program satisfies
this by construction of `dict`. -/
def WF [DecidableEq K] : TrieNode K → Bool
  | .mk _ _ none => true
  | .mk _ _ (some l) => !(l.isEmpty) && keysNodup l && WFL l

/-- `WF` for every node of a list. -/
def WFL [DecidableEq K] : List (TrieNode K) → Bool
  | [] => true
  | c :: cs => WF c && WFL cs

end

mutual

/-- Spec-side pruning invariant: no strict descendant of this node is
simultaneously a non-leaf and childless (an empty key list). -/
def noDeadNode : TrieNode K → Bool
  | .mk _ _ none => true
  | .mk _ _ (some l) => noDeadL l

/-- `noDeadNode` plus the leaf-or-has-children flag for each node of a
list and all its descendants. -/
def noDeadL : List (TrieNode K) → Bool
  | [] => true
  | c :: cs => ((c.isleaf || !(c.keylist.isEmpty)) && noDeadNode c) && noDeadL cs

end

mutual

/-- Working form of the pruning invariant, phrased with the node truth
value's `isempty` test (equivalent to `noDeadNode` on `WF` states). -/
def prunedCh : TrieNode K → Bool
  | .mk _ _ none => true
  | .mk _ _ (some l) => prunedChL l

/-- `prunedCh` companion on lists. -/
def prunedChL : List (TrieNode K) → Bool
  | [] => true
  | c :: cs => ((c.isleaf || !c.isempty) && prunedCh c) && prunedChL cs

end

mutual

/-- Height of a node (0 for a childless node): a bound on the recursion
depth of the depth-first traversal. -/
def heightN : TrieNode K → Nat
  | .mk _ _ none => 0
  | .mk _ _ (some l) => heightL l + 1

/-- Maximum height over a list of nodes. -/
def heightL : List (TrieNode K) → Nat
  | [] => 0
  | c :: cs => max (heightN c) (heightL cs)

end

mutual

/-- Total number of reachable nodes: a bound on the number of queue pops
of the breadth-first traversal. -/
def nodeCount : TrieNode K → Nat
  | .mk _ _ none => 1
  | .mk _ _ (some l) => nodeCountL l + 1

/-- Node count summed over a list. -/
def nodeCountL : List (TrieNode K) → Nat
  | [] => 0
  | c :: cs => nodeCount c + nodeCountL cs

end

mutual

/-- Spec-side enumeration of the root-to-leaf key paths (inclusive of
this node's key, appended to the accumulated path of its ancestors) of
every currently inserted leaf below (and including) this node. -/
def specLeafPaths : TrieNode K → List K → List (List K)
  | .mk k b none, path => if b then [path ++ [k]] else []
  | .mk k b (some l), path =>
    (if b then [path ++ [k]] else []) ++ specLeafPathsL l (path ++ [k])

/-- `specLeafPaths` summed over a list of siblings. -/
def specLeafPathsL : List (TrieNode K) → List K → List (List K)
  | [], _ => []
  | c :: cs, path => specLeafPaths c path ++ specLeafPathsL cs path

end

/-- Spec-side: the node reached from `n` by following the key sequence
through existing children only (`none` when the path is absent). -/
def nodeAt [DecidableEq K] (n : TrieNode K) : List K → Option (TrieNode K)
  | [] => some n
  | k :: ks =>
    match n.findChild k with
    | none => none
    | some c => nodeAt c ks

/-- Embedding of the recursive generator `dfs_node` of `Trie.iter`
composed with the `hierarchy` lookup: pre-order traversal that emits the
root-to-node key path at every leaf, visiting children in the order
produced by `sorter` on the node's key list (a key that `sorter` invents
denotes the node freshly created by `node[key]`, as in the source).  The
Python generator can diverge when `sorter` keeps inventing keys, so the
embedding carries explicit fuel; any fuel exceeding the tree height is
enough for a well-behaved `sorter`. -/
def dfsNodes [DecidableEq K] (sorter : List K → List K) : Nat → TrieNode K → List K → List (List K)
  | 0, _, _ => []
  | fuel+1, n, path =>
    (if n.isleaf then [path ++ [n.key]] else []) ++
      ((sorter n.keylist).flatMap fun k => dfsNodes sorter fuel (n.getitem k).2 (path ++ [n.key]))

/-- Embedding of the breadth-first branch of `Trie.iter`: a FIFO queue
of pending nodes (paired with their ancestor key paths, standing for the
`hierarchy` parent walk); pop a node, emit its path if it is a leaf,
enqueue its children in `sorter` order.  Fuel bounds the number of pops
for the same reason as in `dfsNodes`. -/
def bfsNodes [DecidableEq K] (sorter : List K → List K) : Nat → List (List K × TrieNode K) → List (List K)
  | 0, _ => []
  | _+1, [] => []
  | fuel+1, (path, n) :: queue =>
    (if n.isleaf then [path ++ [n.key]] else []) ++
      bfsNodes sorter fuel (queue ++ (sorter n.keylist).map fun k => (path ++ [n.key], (n.getitem k).2))

end TrieNode

namespace Trie

variable {K : Type}

/-- Embedding of `Trie.iter`: the finite list of joined leaf paths, in
depth-first or breadth-first order. -/
def iterList [DecidableEq K] {T : Type} (t : Trie K) (sorter : List K → List K)
    (joiner : List K → T) (dfs : Bool) (fuel : Nat) : List T :=
  if dfs then (TrieNode.dfsNodes sorter fuel t.root []).map joiner
  else (TrieNode.bfsNodes sorter fuel [([], t.root)]).map joiner

end Trie

namespace TrieNode

variable {K : Type}

/-- Spec-side: the `isleaf` flag of an optionally reached node (`false`
when the path was absent). -/
def leafAt : Option (TrieNode K) → Bool
  | none => false
  | some m => m.isleaf

/-- Leaf count of an optional node (a pruned-away node counts 0). -/
def countLeavesO : Option (TrieNode K) → Nat
  | none => 0
  | some m => countLeaves m

end TrieNode

/-- Platform path separator, modelling `os.sep` on a POSIX system. -/
def pySep : String := "/"

/-- Absolute-path test, modelling `os.path.isabs` on a POSIX system:
a path is absolute when it starts with the separator character. -/
def pyIsAbs (s : String) : Bool :=
  match s.data with
  | [] => false
  | c :: _ => c == Char.ofNat 47

/-- Python's `str.rstrip` with a single-character argument: remove every
trailing occurrence of that character. -/
def pyRstrip (c : Char) (s : String) : String :=
  String.mk ((s.data.reverse.dropWhile (fun d => d == c)).reverse)

/-- The backslash character (`\\` in Python source). -/
def backslashChar : Char := Char.ofNat 92

/-- Embedding of the default `joiner` built by `Trie.string_paths`:
consume the root key, return the bare separator if nothing follows;
otherwise build the prefix (the literal string `'.'`, whose character
iteration contributes the single segment `"."`, for a leading `'.'`
segment; the first segment stripped of trailing backslashes when it is
absolute; the root key plus the first segment otherwise) and join it
with the remaining segments using the separator.  An empty parts list
makes the Python generator raise `StopIteration`, rendered as `none`. -/
def pathJoiner (parts : List String) : Option String :=
  match parts with
  | [] => none
  | root :: rest =>
    match rest with
    | [] => some pySep
    | first :: others =>
      let prefixL : List String :=
        if first = "." then (String.data ".").map (fun c => String.singleton c)
        else if pyIsAbs first then [pyRstrip backslashChar first]
        else [root, first]
      some (String.intercalate pySep (prefixL ++ others))

/-- Python's `str.rstrip` over the separator character, for stating the
claimed behaviour (strip any trailing platform separator). -/
def stripTrailingSeps (s : String) : String :=
  String.mk ((s.data.reverse.dropWhile (fun d => d == Char.ofNat 47)).reverse)

/-- The path-trie joiner as the specification sentence states it:
bare root gives the separator; an absolute first segment is emitted
verbatim stripped of any trailing separator and joined with the rest;
a relative first segment means all segments (the empty root key
included) are joined with the separator. -/
def claimedPathJoiner (parts : List String) : Option String :=
  match parts with
  | [] => none
  | root :: rest =>
    match rest with
    | [] => some pySep
    | first :: others =>
      if pyIsAbs first then some (String.intercalate pySep (stripTrailingSeps first :: others))
      else some (String.intercalate pySep (root :: first :: others))

/-- The path-trie joiner as amended: identical to the claim except that
a first segment equal to `"."` is joined with the remaining segments
with the root key omitted, and an absolute first segment is stripped of
trailing backslashes (the Windows drive-root special case), not of
trailing platform separators. -/
def amendedPathJoiner (parts : List String) : Option String :=
  match parts with
  | [] => none
  | root :: rest =>
    match rest with
    | [] => some pySep
    | first :: others =>
      if first = "." then some (String.intercalate pySep ("." :: others))
      else if pyIsAbs first then
        some (String.intercalate pySep (pyRstrip backslashChar first :: others))
      else some (String.intercalate pySep (root :: first :: others))

namespace TrieNode

variable {K : Type}

/-- Python's `repr` of a string key, for the simple keys used here:
the text wrapped in single quotes (escaping is not modelled). -/
def pyStrRepr (s : String) : String :=
  String.singleton (Char.ofNat 39) ++ s ++ String.singleton (Char.ofNat 39)

/-- Embedding of `_TrieNode.__str__`: the repr of the key, followed by
an asterisk exactly when the node is a leaf.  Its docstring states this
is the form used to display the node as part of the entire structure. -/
def nodeStr (reprK : K → String) (n : TrieNode K) : String :=
  reprK n.key ++ (if n.isleaf then "*" else "")

/-- Embedding of `_TrieNode.__repr__`: the constructor-style line
actually interpolated by `Trie.__repr__` for every node; the parent
descriptor (`type(parent).__name__` at `id(parent)`) is an opaque
parameter since object identities are not part of the value model. -/
def nodeReprFmt (reprK : K → String) (parentDesc : String) (n : TrieNode K) : String :=
  "_TrieNode(key=" ++ reprK n.key ++ ", parent=" ++ parentDesc ++ ", isleaf=" ++
    (if n.isleaf then "True" else "False") ++ ")"

end TrieNode

namespace TrieNode

variable {K : Type}

@[simp] theorem key_mk (k : K) (b : Bool) (s : Option (List (TrieNode K))) :
    (TrieNode.mk k b s).key = k := rfl

@[simp] theorem isleaf_mk (k : K) (b : Bool) (s : Option (List (TrieNode K))) :
    (TrieNode.mk k b s).isleaf = b := rfl

@[simp] theorem suffixes_mk (k : K) (b : Bool) (s : Option (List (TrieNode K))) :
    (TrieNode.mk k b s).suffixes = s := rfl

@[simp] theorem childrenList_mk_none (k : K) (b : Bool) :
    (TrieNode.mk k b none).childrenList = [] := rfl

@[simp] theorem childrenList_mk_some (k : K) (b : Bool) (l : List (TrieNode K)) :
    (TrieNode.mk k b (some l)).childrenList = l := rfl

@[simp] theorem isempty_mk_none (k : K) (b : Bool) :
    (TrieNode.mk k b none).isempty = true := rfl

@[simp] theorem isempty_mk_some (k : K) (b : Bool) (l : List (TrieNode K)) :
    (TrieNode.mk k b (some l)).isempty = false := rfl

theorem eta (n : TrieNode K) : TrieNode.mk n.key n.isleaf n.suffixes = n := by
  cases n
  rfl

section Lists

variable [DecidableEq K]

theorem keysNodup_iff {l : List (TrieNode K)} :
    keysNodup l = true ↔ (l.map key).Nodup := by
  induction l with
  | nil => simp [keysNodup]
  | cons c cs ih =>
    simp only [keysNodup, List.map_cons, List.nodup_cons, Bool.and_eq_true,
      Bool.not_eq_true', List.any_eq_false, List.mem_map, beq_iff_eq,
      beq_eq_false_iff_ne, ne_eq, ih]
    constructor
    · rintro ⟨h1, h2⟩
      refine ⟨?_, h2⟩
      rintro ⟨d, hd, hdk⟩
      exact h1 d hd hdk
    · rintro ⟨h1, h2⟩
      exact ⟨fun d hd hdk => h1 ⟨d, hd, hdk⟩, h2⟩

theorem find?_key_self {l : List (TrieNode K)} {c : TrieNode K}
    (hnd : keysNodup l = true) (hc : c ∈ l) :
    l.find? (fun x => x.key == c.key) = some c := by
  induction l with
  | nil => simp at hc
  | cons a as ih =>
    simp only [keysNodup, Bool.and_eq_true, Bool.not_eq_true', List.any_eq_false,
      beq_iff_eq, beq_eq_false_iff_ne, ne_eq] at hnd
    rcases List.mem_cons.mp hc with h | h
    · subst h
      exact List.find?_cons_of_pos as (by simp)
    · have hne : a.key ≠ c.key := fun e => hnd.1 c h e.symm
      rw [(List.find?_cons_of_neg as (by simp [hne]) :
        List.find? (fun x => x.key == c.key) (a :: as) = List.find? (fun x => x.key == c.key) as)]
      exact ih hnd.2 h

theorem setList_self {l : List (TrieNode K)} {k : K} {c : TrieNode K}
    (h : l.find? (fun x => x.key == k) = some c) : setList l k c = l := by
  induction l with
  | nil => simp at h
  | cons a as ih =>
    cases hak : (a.key == k) with
    | true =>
      rw [(List.find?_cons_of_pos as hak :
        List.find? (fun x => x.key == k) (a :: as) = some a)] at h
      simp only [Option.some.injEq] at h
      subst h
      simp [setList, hak]
    | false =>
      rw [(List.find?_cons_of_neg as (by simp [hak]) :
        List.find? (fun x => x.key == k) (a :: as) = List.find? (fun x => x.key == k) as)] at h
      simp [setList, hak, ih h]

theorem find?_setList_self {l : List (TrieNode K)} {k : K} {c c' : TrieNode K}
    (hk : c'.key = k) (h : l.find? (fun x => x.key == k) = some c) :
    (setList l k c').find? (fun x => x.key == k) = some c' := by
  induction l with
  | nil => simp at h
  | cons a as ih =>
    cases hak : (a.key == k) with
    | true =>
      have hs : setList (a :: as) k c' = c' :: as := by simp [setList, hak]
      rw [hs]
      exact List.find?_cons_of_pos as (by simp [hk])
    | false =>
      rw [(List.find?_cons_of_neg as (by simp [hak]) :
        List.find? (fun x => x.key == k) (a :: as) = List.find? (fun x => x.key == k) as)] at h
      have hs : setList (a :: as) k c' = a :: setList as k c' := by simp [setList, hak]
      rw [hs]
      rw [(List.find?_cons_of_neg (setList as k c') (by simp [hak]) :
        List.find? (fun x => x.key == k) (a :: setList as k c') =
          List.find? (fun x => x.key == k) (setList as k c'))]
      exact ih h

theorem find?_setList_ne {l : List (TrieNode K)} {k j : K} {c' : TrieNode K}
    (hk : c'.key = k) (hj : j ≠ k) :
    (setList l k c').find? (fun x => x.key == j) = l.find? (fun x => x.key == j) := by
  have hc'j : c'.key ≠ j := by
    rw [hk]
    exact fun e => hj e.symm
  induction l with
  | nil =>
    simp only [setList]
    rw [(List.find?_cons_of_neg [] (by simp [hc'j]) :
      List.find? (fun x => x.key == j) [c'] = List.find? (fun x => x.key == j) [])]
  | cons a as ih =>
    cases hak : (a.key == k) with
    | true =>
      have haj : a.key ≠ j := by
        rw [beq_iff_eq] at hak
        rw [hak]
        exact fun e => hj e.symm
      have hs : setList (a :: as) k c' = c' :: as := by simp [setList, hak]
      rw [hs]
      rw [(List.find?_cons_of_neg as (by simp [hc'j]) :
        List.find? (fun x => x.key == j) (c' :: as) = List.find? (fun x => x.key == j) as)]
      rw [(List.find?_cons_of_neg as (by simp [haj]) :
        List.find? (fun x => x.key == j) (a :: as) = List.find? (fun x => x.key == j) as)]
    | false =>
      have hs : setList (a :: as) k c' = a :: setList as k c' := by simp [setList, hak]
      rw [hs]
      cases haj : (a.key == j) with
      | true =>
        rw [(List.find?_cons_of_pos (setList as k c') haj :
          List.find? (fun x => x.key == j) (a :: setList as k c') = some a)]
        rw [(List.find?_cons_of_pos as haj :
          List.find? (fun x => x.key == j) (a :: as) = some a)]
      | false =>
        rw [(List.find?_cons_of_neg (setList as k c') (by simp [haj]) :
          List.find? (fun x => x.key == j) (a :: setList as k c') =
            List.find? (fun x => x.key == j) (setList as k c'))]
        rw [(List.find?_cons_of_neg as (by simp [haj]) :
          List.find? (fun x => x.key == j) (a :: as) = List.find? (fun x => x.key == j) as)]
        exact ih

theorem countLeavesL_setList {l : List (TrieNode K)} {k : K} {c c' : TrieNode K}
    (h : l.find? (fun x => x.key == k) = some c) :
    countLeavesL (setList l k c') + countLeaves c = countLeavesL l + countLeaves c' := by
  induction l with
  | nil => simp at h
  | cons a as ih =>
    cases hak : (a.key == k) with
    | true =>
      rw [(List.find?_cons_of_pos as hak :
        List.find? (fun x => x.key == k) (a :: as) = some a)] at h
      simp only [Option.some.injEq] at h
      subst h
      have hs : setList (a :: as) k c' = c' :: as := by simp [setList, hak]
      rw [hs]
      simp only [countLeavesL]
      omega
    | false =>
      rw [(List.find?_cons_of_neg as (by simp [hak]) :
        List.find? (fun x => x.key == k) (a :: as) = List.find? (fun x => x.key == k) as)] at h
      have hs : setList (a :: as) k c' = a :: setList as k c' := by simp [setList, hak]
      rw [hs]
      have := ih h
      simp only [countLeavesL]
      omega

theorem countLeavesL_eraseP {l : List (TrieNode K)} {k : K} {c : TrieNode K}
    (h : l.find? (fun x => x.key == k) = some c) :
    countLeavesL (l.eraseP (fun x => x.key == k)) + countLeaves c = countLeavesL l := by
  induction l with
  | nil => simp at h
  | cons a as ih =>
    cases hak : (a.key == k) with
    | true =>
      rw [(List.find?_cons_of_pos as hak :
        List.find? (fun x => x.key == k) (a :: as) = some a)] at h
      simp only [Option.some.injEq] at h
      subst h
      rw [(List.eraseP_cons_of_pos hak :
        List.eraseP (fun x => x.key == k) (a :: as) = as)]
      simp only [countLeavesL]
      omega
    | false =>
      rw [(List.find?_cons_of_neg as (by simp [hak]) :
        List.find? (fun x => x.key == k) (a :: as) = List.find? (fun x => x.key == k) as)] at h
      rw [(List.eraseP_cons_of_neg (by simp [hak]) :
        List.eraseP (fun x => x.key == k) (a :: as) = a :: List.eraseP (fun x => x.key == k) as)]
      have := ih h
      simp only [countLeavesL]
      omega

end Lists

end TrieNode

namespace TrieNode

variable {K : Type}

theorem countLeaves_eq (n : TrieNode K) :
    countLeaves n = (if n.isleaf then 1 else 0) + countLeavesL n.childrenList := by
  cases n with
  | mk k b s =>
    cases s with
    | none => simp [countLeaves, countLeavesL]
    | some l => simp [countLeaves]

theorem countLeavesL_append (l1 l2 : List (TrieNode K)) :
    countLeavesL (l1 ++ l2) = countLeavesL l1 + countLeavesL l2 := by
  induction l1 with
  | nil => simp [countLeavesL]
  | cons a as ih =>
    simp only [List.cons_append, countLeavesL]
    simp only [List.append_eq] at ih ⊢
    omega

section Ops

variable [DecidableEq K]

theorem getitem_present {n : TrieNode K} {k : K} {c : TrieNode K}
    (h : n.findChild k = some c) : n.getitem k = (n, c) := by
  cases n with
  | mk a b s =>
    cases s with
    | none => simp [findChild, childrenList] at h
    | some l =>
      simp only [findChild, childrenList_mk_some] at h
      simp [getitem, childrenList, h]

theorem getitem_absent {n : TrieNode K} {k : K}
    (h : n.findChild k = none) :
    n.getitem k =
      (.mk n.key n.isleaf (some (n.childrenList ++ [.mk k false none])), .mk k false none) := by
  simp only [findChild] at h
  simp [getitem, h]

@[simp] theorem setChild_key (n : TrieNode K) (k : K) (c' : TrieNode K) :
    (n.setChild k c').key = n.key := rfl

@[simp] theorem setChild_isleaf (n : TrieNode K) (k : K) (c' : TrieNode K) :
    (n.setChild k c').isleaf = n.isleaf := rfl

@[simp] theorem setChild_isempty (n : TrieNode K) (k : K) (c' : TrieNode K) :
    (n.setChild k c').isempty = false := rfl

@[simp] theorem setChild_childrenList (n : TrieNode K) (k : K) (c' : TrieNode K) :
    (n.setChild k c').childrenList = setList n.childrenList k c' := rfl

theorem setChild_eq_self {n : TrieNode K} {k : K} {c : TrieNode K}
    (h : n.findChild k = some c) : n.setChild k c = n := by
  cases n with
  | mk a b s =>
    cases s with
    | none => simp [findChild, childrenList] at h
    | some l =>
      simp only [findChild, childrenList_mk_some] at h
      simp [setChild, childrenList, setList_self h]

theorem findChild_setChild_self {n : TrieNode K} {k : K} {c c' : TrieNode K}
    (hk : c'.key = k) (h : n.findChild k = some c) :
    (n.setChild k c').findChild k = some c' := by
  simp only [findChild, setChild_childrenList]
  exact find?_setList_self hk h

theorem findChild_setChild_ne {n : TrieNode K} {k j : K} {c' : TrieNode K}
    (hk : c'.key = k) (hj : j ≠ k) :
    (n.setChild k c').findChild j = n.findChild j := by
  simp only [findChild, setChild_childrenList]
  exact find?_setList_ne hk hj

theorem countLeaves_setChild {n : TrieNode K} {k : K} {c c' : TrieNode K}
    (h : n.findChild k = some c) :
    countLeaves (n.setChild k c') + countLeaves c = countLeaves n + countLeaves c' := by
  rw [countLeaves_eq (n.setChild k c'), countLeaves_eq n, setChild_isleaf, setChild_childrenList]
  have : countLeavesL (setList n.childrenList k c') + countLeaves c =
      countLeavesL n.childrenList + countLeaves c' := countLeavesL_setList h
  omega

theorem getitem_fst_key (n : TrieNode K) (k : K) : (n.getitem k).1.key = n.key := by
  cases hfc : n.findChild k with
  | some c => rw [getitem_present hfc]
  | none =>
    rw [getitem_absent hfc]
    rfl

theorem getitem_fst_isleaf (n : TrieNode K) (k : K) : (n.getitem k).1.isleaf = n.isleaf := by
  cases hfc : n.findChild k with
  | some c => rw [getitem_present hfc]
  | none =>
    rw [getitem_absent hfc]
    rfl

theorem getitem_snd_key (n : TrieNode K) (k : K) : (n.getitem k).2.key = k := by
  cases hfc : n.findChild k with
  | some c =>
    rw [getitem_present hfc]
    have := List.find?_some hfc
    rw [beq_iff_eq] at this
    exact this
  | none =>
    rw [getitem_absent hfc]
    rfl

theorem findChild_getitem_fst (n : TrieNode K) (k : K) :
    (n.getitem k).1.findChild k = some (n.getitem k).2 := by
  cases hfc : n.findChild k with
  | some c =>
    rw [getitem_present hfc]
    exact hfc
  | none =>
    rw [getitem_absent hfc]
    simp only [findChild, childrenList_mk_some]
    rw [List.find?_append]
    simp only [findChild] at hfc
    rw [hfc]
    simp [List.find?_cons]

theorem findChild_getitem_fst_ne {n : TrieNode K} {k j : K} (hj : j ≠ k) :
    (n.getitem k).1.findChild j = n.findChild j := by
  cases hfc : n.findChild k with
  | some c => rw [getitem_present hfc]
  | none =>
    rw [getitem_absent hfc]
    simp only [findChild, childrenList_mk_some]
    rw [List.find?_append]
    have hkj : (k == j) = false := beq_eq_false_iff_ne.mpr (fun e => hj e.symm)
    have hE : List.find? (fun x => x.key == j) [TrieNode.mk k false none] = none := by
      simp [List.find?_cons, hkj]
    rw [hE]
    simp [findChild]

theorem countLeaves_getitem_fst (n : TrieNode K) (k : K) :
    countLeaves (n.getitem k).1 = countLeaves n := by
  cases hfc : n.findChild k with
  | some c => rw [getitem_present hfc]
  | none =>
    rw [getitem_absent hfc]
    rw [countLeaves_eq, countLeaves_eq n]
    simp only [isleaf_mk, childrenList_mk_some, countLeavesL_append]
    simp [countLeavesL, countLeaves]

theorem countLeaves_getitem_snd {n : TrieNode K} {k : K} {c : TrieNode K} :
    n.findChild k = some c → countLeaves (n.getitem k).2 = countLeaves c := by
  intro h
  rw [getitem_present h]

theorem countLeaves_getitem_snd_absent {n : TrieNode K} {k : K} :
    n.findChild k = none → countLeaves (n.getitem k).2 = 0 := by
  intro h
  rw [getitem_absent h]
  simp [countLeaves]

end Ops

end TrieNode

namespace TrieNode

variable {K : Type} [DecidableEq K]

theorem addNode_cons (n : TrieNode K) (k : K) (ks : List K) :
    n.addNode (k :: ks) =
      ((n.getitem k).1.setChild k ((n.getitem k).2.addNode ks).1,
        ((n.getitem k).2.addNode ks).2) := by
  simp only [addNode]

theorem containsS_cons_found {n : TrieNode K} {k : K} (ks : List K) {c : TrieNode K}
    (hfc : n.findChild k = some c) :
    n.containsS (k :: ks) = (n.setChild k (c.containsS ks).1, (c.containsS ks).2) := by
  have hhc : n.hasChild k = true := by simp [hasChild, hfc]
  simp only [containsS, hhc, if_true]
  rw [getitem_present hfc]

theorem containsS_cons_missing {n : TrieNode K} {k : K} (ks : List K)
    (hfc : n.findChild k = none) :
    n.containsS (k :: ks) = (n, false) := by
  have hhc : n.hasChild k = false := by simp [hasChild, hfc]
  simp only [containsS, hhc, Bool.false_eq_true, if_false]

theorem removeAux_nil (isRoot : Bool) (n : TrieNode K) :
    removeAux isRoot n [] =
      (if n.isleaf then
        (if boolVal isRoot (TrieNode.mk n.key false n.suffixes) then
          (some (TrieNode.mk n.key false n.suffixes), true)
        else (none, true))
      else (some n, false)) := by
  simp only [removeAux]

theorem removeAux_cons_missing {isRoot : Bool} {n : TrieNode K} {k : K} (ks : List K)
    (hfc : n.findChild k = none) :
    removeAux isRoot n (k :: ks) = (some n, false) := by
  have hhc : n.hasChild k = false := by simp [hasChild, hfc]
  simp only [removeAux, hhc, Bool.false_eq_true, if_false]

theorem removeAux_cons_found_some {isRoot : Bool} {n : TrieNode K} {k : K} {ks : List K}
    {c c' : TrieNode K} {b : Bool}
    (hfc : n.findChild k = some c) (hrec : removeAux false c ks = (some c', b)) :
    removeAux isRoot n (k :: ks) = (some (n.setChild k c'), b) := by
  have hhc : n.hasChild k = true := by simp [hasChild, hfc]
  simp only [removeAux, hhc, if_true]
  rw [getitem_present hfc]
  simp only [hrec]

theorem removeAux_cons_found_none {isRoot : Bool} {n : TrieNode K} {k : K} {ks : List K}
    {c : TrieNode K} {b : Bool}
    (hfc : n.findChild k = some c) (hrec : removeAux false c ks = (none, b)) :
    removeAux isRoot n (k :: ks) =
      (if boolVal isRoot (n.delChild k) then (some (n.delChild k), b) else (none, b)) := by
  have hhc : n.hasChild k = true := by simp [hasChild, hfc]
  simp only [removeAux, hhc, if_true]
  rw [getitem_present hfc]
  simp only [hrec]

theorem addNode_key (s : List K) (n : TrieNode K) : ((n.addNode s).1).key = n.key := by
  induction s generalizing n with
  | nil => cases h : n.isleaf <;> simp [addNode, h]
  | cons k ks ih =>
    rw [addNode_cons]
    simp [getitem_fst_key]

theorem addNode_isleaf_of_ne_nil (s : List K) (n : TrieNode K) (h : s ≠ []) :
    ((n.addNode s).1).isleaf = n.isleaf := by
  cases s with
  | nil => exact absurd rfl h
  | cons k ks =>
    rw [addNode_cons]
    simp [getitem_fst_isleaf]

theorem containsS_fst (s : List K) (n : TrieNode K) : (n.containsS s).1 = n := by
  induction s generalizing n with
  | nil => rfl
  | cons k ks ih =>
    cases hfc : n.findChild k with
    | none => rw [containsS_cons_missing ks hfc]
    | some c =>
      rw [containsS_cons_found ks hfc]
      simp only [ih]
      exact setChild_eq_self hfc

theorem containsS_snd (s : List K) (n : TrieNode K) :
    (n.containsS s).2 = leafAt (nodeAt n s) := by
  induction s generalizing n with
  | nil => simp [containsS, nodeAt, leafAt]
  | cons k ks ih =>
    cases hfc : n.findChild k with
    | none => rw [containsS_cons_missing ks hfc]; simp [nodeAt, hfc, leafAt]
    | some c =>
      rw [containsS_cons_found ks hfc]
      simp only [nodeAt, hfc]
      exact ih c

theorem addNode_count (s : List K) (n : TrieNode K) :
    countLeaves (n.addNode s).1 = countLeaves n + (if (n.addNode s).2 then 1 else 0) := by
  induction s generalizing n with
  | nil =>
    cases h : n.isleaf with
    | true => simp [addNode, h]
    | false =>
      simp only [addNode, h, Bool.false_eq_true, if_false, if_true]
      rw [countLeaves_eq, countLeaves_eq n, h]
      simp only [isleaf_mk, if_true, Bool.false_eq_true, if_false]
      have : (TrieNode.mk n.key true n.suffixes).childrenList = n.childrenList := rfl
      rw [this]
      omega
  | cons k ks ih =>
    rw [addNode_cons]
    have h1 : (n.getitem k).1.findChild k = some (n.getitem k).2 := findChild_getitem_fst n k
    have h2 : countLeaves ((n.getitem k).1.setChild k ((n.getitem k).2.addNode ks).1) +
        countLeaves (n.getitem k).2 =
        countLeaves (n.getitem k).1 + countLeaves ((n.getitem k).2.addNode ks).1 :=
      countLeaves_setChild h1
    have h3 := ih (n.getitem k).2
    have h4 := countLeaves_getitem_fst n k
    simp only at h2 ⊢
    omega

theorem addNode_fresh_true (ks : List K) : ∀ k : K,
    ((TrieNode.mk k false (none : Option (List (TrieNode K)))).addNode ks).2 = true := by
  induction ks with
  | nil => intro k; simp [addNode]
  | cons k2 ks2 ih =>
    intro k
    rw [addNode_cons]
    simp only
    rw [(getitem_absent (by simp [findChild, childrenList]) :
      (TrieNode.mk k false (none : Option (List (TrieNode K)))).getitem k2 =
        (TrieNode.mk k false (some ([] ++ [TrieNode.mk k2 false none])),
          TrieNode.mk k2 false none))]
    simp only
    exact ih k2

theorem addNode_false (s : List K) (n : TrieNode K) (h : (n.addNode s).2 = false) :
    (n.addNode s).1 = n := by
  induction s generalizing n with
  | nil =>
    cases hb : n.isleaf with
    | true => simp [addNode, hb]
    | false => simp [addNode, hb] at h
  | cons k ks ih =>
    rw [addNode_cons] at h ⊢
    simp only at h
    cases hfc : n.findChild k with
    | none =>
      exfalso
      rw [getitem_absent hfc] at h
      simp only at h
      rw [addNode_fresh_true ks k] at h
      exact Bool.true_eq_false.mp h
    | some c =>
      rw [getitem_present hfc] at h ⊢
      simp only at h ⊢
      rw [ih c h]
      exact setChild_eq_self hfc

theorem boolVal_root (n : TrieNode K) : boolVal true n = true := by
  simp [boolVal]

theorem boolVal_false_iff {r : Bool} {n : TrieNode K} :
    boolVal r n = false ↔ n.isleaf = false ∧ n.isempty = true ∧ r = false := by
  cases hr : r <;> cases hl : n.isleaf <;> cases he : n.isempty <;>
    simp [boolVal, hr, hl, he]

theorem find?_length_one {l : List (TrieNode K)} {p : TrieNode K → Bool} {c : TrieNode K}
    (hlen : l.length = 1) (h : l.find? p = some c) : l = [c] := by
  cases l with
  | nil => simp at hlen
  | cons a as =>
    cases as with
    | nil =>
      cases hp : p a with
      | true =>
        rw [List.find?_cons_of_pos [] hp] at h
        simp only [Option.some.injEq] at h
        rw [h]
      | false =>
        rw [List.find?_cons_of_neg [] (by simp [hp])] at h
        simp at h
    | cons b bs => simp at hlen

theorem find?_eraseP_nodup {l : List (TrieNode K)} {k : K}
    (hnd : keysNodup l = true) :
    (l.eraseP (fun x => x.key == k)).find? (fun x => x.key == k) = none := by
  induction l with
  | nil => simp
  | cons a as ih =>
    simp only [keysNodup, Bool.and_eq_true, Bool.not_eq_true', List.any_eq_false,
      beq_iff_eq] at hnd
    cases hak : (a.key == k) with
    | true =>
      rw [(List.eraseP_cons_of_pos hak : List.eraseP (fun x => x.key == k) (a :: as) = as)]
      rw [List.find?_eq_none]
      intro x hx
      simp only [beq_iff_eq]
      rw [beq_iff_eq] at hak
      intro e
      exact hnd.1 x hx (e.trans hak.symm)
    | false =>
      rw [(List.eraseP_cons_of_neg (by simp [hak]) :
        List.eraseP (fun x => x.key == k) (a :: as) = a :: List.eraseP (fun x => x.key == k) as)]
      rw [(List.find?_cons_of_neg _ (by simp [hak]) :
        List.find? (fun x => x.key == k) (a :: List.eraseP (fun x => x.key == k) as) =
          List.find? (fun x => x.key == k) (List.eraseP (fun x => x.key == k) as))]
      exact ih hnd.2

theorem keys_setList {l : List (TrieNode K)} {k : K} {c c' : TrieNode K}
    (hk : c'.key = k) (h : l.find? (fun x => x.key == k) = some c) :
    (setList l k c').map key = l.map key := by
  induction l with
  | nil => simp at h
  | cons a as ih =>
    cases hak : (a.key == k) with
    | true =>
      have hs : setList (a :: as) k c' = c' :: as := by simp [setList, hak]
      rw [hs]
      rw [beq_iff_eq] at hak
      simp [hk, hak]
    | false =>
      rw [(List.find?_cons_of_neg as (by simp [hak]) :
        List.find? (fun x => x.key == k) (a :: as) = List.find? (fun x => x.key == k) as)] at h
      have hs : setList (a :: as) k c' = a :: setList as k c' := by simp [setList, hak]
      rw [hs]
      simp [ih h]

theorem setList_append_fresh {l : List (TrieNode K)} {k : K} {c' : TrieNode K}
    (h : l.find? (fun x => x.key == k) = none) :
    setList (l ++ [TrieNode.mk k false none]) k c' = l ++ [c'] := by
  induction l with
  | nil => simp [setList]
  | cons a as ih =>
    rw [List.find?_eq_none] at h
    have hak : (a.key == k) = false := by
      cases hb : (a.key == k) with
      | true => exact absurd hb (h a (by simp))
      | false => rfl
    have has : List.find? (fun x => x.key == k) as = none := by
      rw [List.find?_eq_none]
      intro x hx
      exact h x (by simp [hx])
    simp only [List.cons_append, setList, hak, Bool.false_eq_true, if_false, List.append_eq]
    rw [ih has]

theorem WFL_mem {l : List (TrieNode K)} {c : TrieNode K}
    (hw : WFL l = true) (hc : c ∈ l) : WF c = true := by
  induction l with
  | nil => simp at hc
  | cons a as ih =>
    simp only [WFL, Bool.and_eq_true] at hw
    rcases List.mem_cons.mp hc with h | h
    · rw [h]; exact hw.1
    · exact ih hw.2 h

theorem WFL_append {l1 l2 : List (TrieNode K)} (h1 : WFL l1 = true) (h2 : WFL l2 = true) :
    WFL (l1 ++ l2) = true := by
  induction l1 with
  | nil => simpa using h2
  | cons a as ih =>
    simp only [WFL, Bool.and_eq_true] at h1
    simp only [List.cons_append, WFL, Bool.and_eq_true]
    exact ⟨h1.1, ih h1.2⟩

theorem WFL_setList {l : List (TrieNode K)} {k : K} {c c' : TrieNode K}
    (hw : WFL l = true) (hc' : WF c' = true)
    (h : l.find? (fun x => x.key == k) = some c) : WFL (setList l k c') = true := by
  induction l with
  | nil => simp at h
  | cons a as ih =>
    simp only [WFL, Bool.and_eq_true] at hw
    cases hak : (a.key == k) with
    | true =>
      have hs : setList (a :: as) k c' = c' :: as := by simp [setList, hak]
      rw [hs]
      simp only [WFL, Bool.and_eq_true]
      exact ⟨hc', hw.2⟩
    | false =>
      rw [(List.find?_cons_of_neg as (by simp [hak]) :
        List.find? (fun x => x.key == k) (a :: as) = List.find? (fun x => x.key == k) as)] at h
      have hs : setList (a :: as) k c' = a :: setList as k c' := by simp [setList, hak]
      rw [hs]
      simp only [WFL, Bool.and_eq_true]
      exact ⟨hw.1, ih hw.2 h⟩

theorem WFL_eraseP {l : List (TrieNode K)} {p : TrieNode K → Bool}
    (hw : WFL l = true) : WFL (l.eraseP p) = true := by
  induction l with
  | nil => simpa using hw
  | cons a as ih =>
    simp only [WFL, Bool.and_eq_true] at hw
    cases hp : p a with
    | true =>
      rw [List.eraseP_cons_of_pos hp]
      exact hw.2
    | false =>
      rw [List.eraseP_cons_of_neg (by simp [hp])]
      simp only [WFL, Bool.and_eq_true]
      exact ⟨hw.1, ih hw.2⟩

theorem prunedChL_mem {l : List (TrieNode K)} {c : TrieNode K}
    (hp : prunedChL l = true) (hc : c ∈ l) :
    ((c.isleaf || !c.isempty) = true) ∧ prunedCh c = true := by
  induction l with
  | nil => simp at hc
  | cons a as ih =>
    simp only [prunedChL, Bool.and_eq_true] at hp
    rcases List.mem_cons.mp hc with h | h
    · rw [h]; exact ⟨hp.1.1, hp.1.2⟩
    · exact ih hp.2 h

theorem prunedChL_append {l1 l2 : List (TrieNode K)}
    (h1 : prunedChL l1 = true) (h2 : prunedChL l2 = true) : prunedChL (l1 ++ l2) = true := by
  induction l1 with
  | nil => simpa using h2
  | cons a as ih =>
    simp only [prunedChL, Bool.and_eq_true] at h1
    simp only [List.cons_append, prunedChL, Bool.and_eq_true]
    exact ⟨h1.1, ih h1.2⟩

theorem prunedChL_setList {l : List (TrieNode K)} {k : K} {c c' : TrieNode K}
    (hp : prunedChL l = true) (hf : (c'.isleaf || !c'.isempty) = true)
    (hpc : prunedCh c' = true)
    (h : l.find? (fun x => x.key == k) = some c) : prunedChL (setList l k c') = true := by
  induction l with
  | nil => simp at h
  | cons a as ih =>
    simp only [prunedChL, Bool.and_eq_true] at hp
    cases hak : (a.key == k) with
    | true =>
      have hs : setList (a :: as) k c' = c' :: as := by simp [setList, hak]
      rw [hs]
      simp only [prunedChL, Bool.and_eq_true]
      exact ⟨⟨hf, hpc⟩, hp.2⟩
    | false =>
      rw [(List.find?_cons_of_neg as (by simp [hak]) :
        List.find? (fun x => x.key == k) (a :: as) = List.find? (fun x => x.key == k) as)] at h
      have hs : setList (a :: as) k c' = a :: setList as k c' := by simp [setList, hak]
      rw [hs]
      simp only [prunedChL, Bool.and_eq_true]
      exact ⟨hp.1, ih hp.2 h⟩

theorem prunedChL_eraseP {l : List (TrieNode K)} {p : TrieNode K → Bool}
    (hp : prunedChL l = true) : prunedChL (l.eraseP p) = true := by
  induction l with
  | nil => simpa using hp
  | cons a as ih =>
    simp only [prunedChL, Bool.and_eq_true] at hp
    cases hq : p a with
    | true =>
      rw [List.eraseP_cons_of_pos hq]
      exact hp.2
    | false =>
      rw [List.eraseP_cons_of_neg (by simp [hq])]
      simp only [prunedChL, Bool.and_eq_true]
      exact ⟨hp.1, ih hp.2⟩

@[simp] theorem delChild_key (n : TrieNode K) (k : K) : (n.delChild k).key = n.key := by
  simp only [delChild]
  split
  · split <;> rfl
  · rfl

@[simp] theorem delChild_isleaf (n : TrieNode K) (k : K) : (n.delChild k).isleaf = n.isleaf := by
  simp only [delChild]
  split
  · split <;> rfl
  · rfl

theorem countLeaves_delChild {n : TrieNode K} {k : K} {c : TrieNode K}
    (hfc : n.findChild k = some c) :
    countLeaves (n.delChild k) + countLeaves c = countLeaves n := by
  have hhc : n.hasChild k = true := by simp [hasChild, hfc]
  simp only [delChild, hhc, if_true]
  cases hlen : (n.childrenList.length == 1) with
  | true =>
    simp only [if_true]
    rw [beq_iff_eq] at hlen
    have hl := find?_length_one hlen hfc
    rw [countLeaves_eq n, countLeaves_eq, hl]
    simp only [isleaf_mk, childrenList_mk_none, countLeavesL]
    omega
  | false =>
    simp only [Bool.false_eq_true, if_false]
    rw [countLeaves_eq n, countLeaves_eq]
    simp only [isleaf_mk, childrenList_mk_some]
    have := countLeavesL_eraseP hfc
    omega

theorem findChild_delChild_self {n : TrieNode K} {k : K}
    (hnd : keysNodup n.childrenList = true) :
    (n.delChild k).findChild k = none := by
  cases hhc : n.hasChild k with
  | false =>
    simp only [delChild, hhc, Bool.false_eq_true, if_false]
    simp only [hasChild, Option.isSome] at hhc
    cases hfc : n.findChild k with
    | none => rfl
    | some c => rw [hfc] at hhc; simp at hhc
  | true =>
    simp only [delChild, hhc, if_true]
    cases hlen : (n.childrenList.length == 1) with
    | true => simp [findChild, childrenList]
    | false =>
      simp only [Bool.false_eq_true, if_false, findChild, childrenList_mk_some]
      exact find?_eraseP_nodup hnd

theorem childrenList_eq_nil_of_isempty {n : TrieNode K} (h : n.isempty = true) :
    n.childrenList = [] := by
  cases n with
  | mk k b s => cases s <;> simp_all [isempty]

theorem removeAux_cons_found_none_kept {isRoot : Bool} {n : TrieNode K} {k : K} {ks : List K}
    {c : TrieNode K} {b : Bool}
    (hfc : n.findChild k = some c) (hrec : removeAux false c ks = (none, b))
    (hbv : boolVal isRoot (n.delChild k) = true) :
    removeAux isRoot n (k :: ks) = (some (n.delChild k), b) := by
  rw [removeAux_cons_found_none hfc hrec, if_pos hbv]

theorem removeAux_cons_found_none_dropped {isRoot : Bool} {n : TrieNode K} {k : K} {ks : List K}
    {c : TrieNode K} {b : Bool}
    (hfc : n.findChild k = some c) (hrec : removeAux false c ks = (none, b))
    (hbv : boolVal isRoot (n.delChild k) = false) :
    removeAux isRoot n (k :: ks) = (none, b) := by
  rw [removeAux_cons_found_none hfc hrec, if_neg (by rw [hbv]; exact Bool.false_ne_true)]

theorem removeAux_snd (s : List K) (isRoot : Bool) (n : TrieNode K) :
    (removeAux isRoot n s).2 = leafAt (nodeAt n s) := by
  induction s generalizing isRoot n with
  | nil =>
    rw [removeAux_nil]
    simp only [nodeAt, leafAt]
    cases h : n.isleaf with
    | true =>
      simp only [h, if_true]
      split <;> rfl
    | false => simp [h]
  | cons k ks ih =>
    cases hfc : n.findChild k with
    | none =>
      rw [removeAux_cons_missing ks hfc]
      simp [nodeAt, hfc, leafAt]
    | some c =>
      rcases hrec : removeAux false c ks with ⟨x, b⟩
      have hb : b = leafAt (nodeAt c ks) := by
        have := ih false c
        rw [hrec] at this
        exact this
      cases x with
      | some c' =>
        rw [removeAux_cons_found_some hfc hrec]
        simp [nodeAt, hfc, hb]
      | none =>
        rw [removeAux_cons_found_none hfc hrec]
        simp only [nodeAt, hfc]
        split <;> simp [hb]

theorem removeAux_false_state (s : List K) (isRoot : Bool) (n : TrieNode K)
    (h : (removeAux isRoot n s).2 = false) : (removeAux isRoot n s).1 = some n := by
  induction s generalizing isRoot n with
  | nil =>
    rw [removeAux_nil] at h ⊢
    cases hl : n.isleaf with
    | true =>
      rw [hl] at h
      simp only [if_true] at h
      split at h <;> simp at h
    | false => simp [hl]
  | cons k ks ih =>
    cases hfc : n.findChild k with
    | none => rw [removeAux_cons_missing ks hfc]
    | some c =>
      rcases hrec : removeAux false c ks with ⟨x, b⟩
      cases x with
      | some c' =>
        rw [removeAux_cons_found_some hfc hrec] at h ⊢
        simp only at h
        have hcc : (removeAux false c ks).1 = some c := ih false c (by rw [hrec]; exact h)
        rw [hrec] at hcc
        simp only [Option.some.injEq] at hcc
        rw [hcc] at *
        rw [setChild_eq_self hfc]
      | none =>
        rw [removeAux_cons_found_none hfc hrec] at h
        have hbf : b = false := by
          rcases hbv : boolVal isRoot (n.delChild k) with _ | _ <;> rw [hbv] at h <;> simpa using h
        have hcc := ih false c (by rw [hrec]; exact hbf)
        rw [hrec] at hcc
        simp at hcc

theorem removeAux_count (s : List K) (isRoot : Bool) (n : TrieNode K) :
    countLeavesO (removeAux isRoot n s).1 + (if (removeAux isRoot n s).2 = true then 1 else 0) =
      countLeaves n := by
  induction s generalizing isRoot n with
  | nil =>
    rw [removeAux_nil]
    cases hl : n.isleaf with
    | false => simp [countLeavesO, hl]
    | true =>
      simp only [hl, if_true]
      cases hb : boolVal isRoot (TrieNode.mk n.key false n.suffixes) with
      | true =>
        simp only [if_true, countLeavesO]
        rw [countLeaves_eq n, countLeaves_eq]
        have hc : (TrieNode.mk n.key false n.suffixes).childrenList = n.childrenList := rfl
        rw [hc, hl]
        simp only [isleaf_mk, if_true, Bool.false_eq_true, if_false]
        omega
      | false =>
        simp only [Bool.false_eq_true, if_false, countLeavesO]
        rw [boolVal_false_iff] at hb
        have he : (TrieNode.mk n.key false n.suffixes).isempty = true := hb.2.1
        have hnil : n.childrenList = [] := by
          have := childrenList_eq_nil_of_isempty he
          simpa using this
        rw [countLeaves_eq n, hl, hnil]
        simp [countLeavesL]
  | cons k ks ih =>
    cases hfc : n.findChild k with
    | none =>
      rw [removeAux_cons_missing ks hfc]
      simp [countLeavesO]
    | some c =>
      rcases hrec : removeAux false c ks with ⟨x, b⟩
      have hcnt := ih false c
      rw [hrec] at hcnt
      simp only at hcnt
      cases x with
      | some c' =>
        rw [removeAux_cons_found_some hfc hrec]
        simp only [countLeavesO]
        have hset : countLeaves (n.setChild k c') + countLeaves c =
            countLeaves n + countLeaves c' := countLeaves_setChild hfc
        simp only [countLeavesO] at hcnt
        omega
      | none =>
        have hbt : b = true := by
          cases hbc : b with
          | true => rfl
          | false =>
            have := removeAux_false_state ks false c (by rw [hrec]; exact hbc)
            rw [hrec] at this
            simp at this
        subst hbt
        simp only [countLeavesO, if_true] at hcnt
        have hc1 : countLeaves c = 1 := by omega
        have hdel := countLeaves_delChild hfc
        cases hbv : boolVal isRoot (n.delChild k) with
        | true =>
          rw [removeAux_cons_found_none_kept hfc hrec hbv]
          simp only [countLeavesO, if_true]
          omega
        | false =>
          rw [removeAux_cons_found_none_dropped hfc hrec hbv]
          simp only [countLeavesO, if_true]
          rw [boolVal_false_iff] at hbv
          have hnil : (n.delChild k).childrenList = [] := childrenList_eq_nil_of_isempty hbv.2.1
          have : countLeaves (n.delChild k) = 0 := by
            rw [countLeaves_eq, hnil, hbv.1]
            simp [countLeavesL]
          omega

theorem removeAux_key {s : List K} {isRoot : Bool} {n n' : TrieNode K}
    (h : (removeAux isRoot n s).1 = some n') : n'.key = n.key := by
  induction s generalizing isRoot n n' with
  | nil =>
    rw [removeAux_nil] at h
    cases hl : n.isleaf with
    | true =>
      rw [hl] at h
      simp only [if_true] at h
      split at h <;> simp only [Option.some.injEq] at h
      · rw [← h]
        simp
      · exact absurd h (by simp)
    | false =>
      rw [hl] at h
      simp only [Bool.false_eq_true, if_false, Option.some.injEq] at h
      rw [← h]
  | cons k ks ih =>
    cases hfc : n.findChild k with
    | none =>
      rw [removeAux_cons_missing ks hfc] at h
      simp only [Option.some.injEq] at h
      rw [← h]
    | some c =>
      rcases hrec : removeAux false c ks with ⟨x, b⟩
      cases x with
      | some c' =>
        rw [removeAux_cons_found_some hfc hrec] at h
        simp only [Option.some.injEq] at h
        rw [← h]
        simp
      | none =>
        rw [removeAux_cons_found_none hfc hrec] at h
        split at h <;> simp only [Option.some.injEq] at h
        · rw [← h]
          simp
        · exact absurd h (by simp)

theorem removeAux_root_some (s : List K) (n : TrieNode K) :
    ∃ n', (removeAux true n s).1 = some n' := by
  cases s with
  | nil =>
    rw [removeAux_nil]
    cases hl : n.isleaf with
    | true => simp [boolVal_root]
    | false => simp
  | cons k ks =>
    cases hfc : n.findChild k with
    | none =>
      rw [removeAux_cons_missing ks hfc]
      simp
    | some c =>
      rcases hrec : removeAux false c ks with ⟨x, b⟩
      cases x with
      | some c' =>
        rw [removeAux_cons_found_some hfc hrec]
        simp
      | none =>
        rw [removeAux_cons_found_none hfc hrec]
        simp [boolVal_root]

theorem findChild_key {n : TrieNode K} {k : K} {c : TrieNode K}
    (hfc : n.findChild k = some c) : c.key = k := by
  simp only [findChild] at hfc
  have h := List.find?_some hfc
  simpa [beq_iff_eq] using h

theorem WF_flag (a : K) (b b' : Bool) (so : Option (List (TrieNode K))) :
    WF (TrieNode.mk a b so) = WF (TrieNode.mk a b' so) := by
  cases so <;> rfl

theorem WF_WFL {n : TrieNode K} (hw : WF n = true) : WFL n.childrenList = true := by
  cases n with
  | mk a b so =>
    cases so with
    | none => rfl
    | some l =>
      simp only [WF, Bool.and_eq_true] at hw
      simpa using hw.2

theorem WF_nodup {n : TrieNode K} (hw : WF n = true) : keysNodup n.childrenList = true := by
  cases n with
  | mk a b so =>
    cases so with
    | none => rfl
    | some l =>
      simp only [WF, Bool.and_eq_true] at hw
      simpa using hw.1.2

theorem WF_children {n : TrieNode K} {c : TrieNode K} (hw : WF n = true)
    (hc : c ∈ n.childrenList) : WF c = true :=
  WFL_mem (WF_WFL hw) hc

theorem WF_findChild {n : TrieNode K} {k : K} {c : TrieNode K} (hw : WF n = true)
    (hfc : n.findChild k = some c) : WF c = true :=
  WF_children hw (List.mem_of_find?_eq_some hfc)

theorem setList_ne_nil (l : List (TrieNode K)) (k : K) (c' : TrieNode K) :
    setList l k c' ≠ [] := by
  cases l with
  | nil => simp [setList]
  | cons a as =>
    simp only [setList]
    split <;> simp

theorem keysNodup_append_key {l : List (TrieNode K)} {k : K} {c' : TrieNode K}
    (hnd : keysNodup l = true) (h : l.find? (fun x => x.key == k) = none)
    (hk : c'.key = k) : keysNodup (l ++ [c']) = true := by
  rw [keysNodup_iff] at hnd ⊢
  rw [List.map_append]
  simp only [List.map_cons, List.map_nil, hk]
  rw [List.nodup_append]
  refine ⟨hnd, List.nodup_singleton k, ?_⟩
  intro a ha hk2
  simp only [List.mem_singleton] at hk2
  subst hk2
  rw [List.mem_map] at ha
  rcases ha with ⟨x, hx, hxk⟩
  rw [List.find?_eq_none] at h
  exact h x hx (by simp [beq_iff_eq, hxk])

theorem WF_setChild {n : TrieNode K} {k : K} {c c' : TrieNode K}
    (hw : WF n = true) (hfc : n.findChild k = some c) (hc' : WF c' = true)
    (hk : c'.key = k) : WF (n.setChild k c') = true := by
  simp only [setChild, WF, Bool.and_eq_true]
  refine ⟨⟨?_, ?_⟩, ?_⟩
  · simp only [Bool.not_eq_true', ← Bool.not_eq_true]
    intro hE
    exact setList_ne_nil n.childrenList k c' (List.isEmpty_iff.mp (by simpa using hE))
  · rw [keysNodup_iff, keys_setList hk hfc, ← keysNodup_iff]
    exact WF_nodup hw
  · exact WFL_setList (WF_WFL hw) hc' hfc

theorem WF_fresh (k : K) : WF (TrieNode.mk k false (none : Option (List (TrieNode K)))) = true :=
  rfl

theorem WF_getitem_fst (n : TrieNode K) (k : K) (hw : WF n = true) :
    WF (n.getitem k).1 = true := by
  cases hfc : n.findChild k with
  | some c => rw [getitem_present hfc]; exact hw
  | none =>
    rw [getitem_absent hfc]
    simp only [WF, Bool.and_eq_true]
    refine ⟨⟨by simp, ?_⟩, ?_⟩
    · exact keysNodup_append_key (WF_nodup hw) (by simpa [findChild] using hfc) rfl
    · exact WFL_append (by simpa using WF_WFL hw) rfl

theorem addNode_WF (s : List K) (n : TrieNode K) (hw : WF n = true) :
    WF (n.addNode s).1 = true := by
  induction s generalizing n with
  | nil =>
    cases hl : n.isleaf with
    | true => simpa [addNode, hl] using hw
    | false =>
      simp only [addNode, hl, Bool.false_eq_true, if_false]
      have := WF_flag n.key true n.isleaf n.suffixes
      rw [this, eta]
      exact hw
  | cons k ks ih =>
    rw [addNode_cons]
    simp only
    have hg : (n.getitem k).1.findChild k = some (n.getitem k).2 := findChild_getitem_fst n k
    have hw1 : WF (n.getitem k).1 = true := WF_getitem_fst n k hw
    have hw2 : WF (n.getitem k).2 = true := by
      cases hfc : n.findChild k with
      | some c =>
        rw [getitem_present hfc]
        exact WF_findChild hw hfc
      | none =>
        rw [getitem_absent hfc]
        rfl
    have hck : ((n.getitem k).2.addNode ks).1.key = k := by
      rw [addNode_key, getitem_snd_key]
    exact WF_setChild hw1 hg (ih _ hw2) hck

theorem keysNodup_eraseP {l : List (TrieNode K)} {p : TrieNode K → Bool}
    (hnd : keysNodup l = true) : keysNodup (l.eraseP p) = true := by
  induction l with
  | nil => simpa using hnd
  | cons a as ih =>
    simp only [keysNodup, Bool.and_eq_true, Bool.not_eq_true', List.any_eq_false] at hnd
    cases hp : p a with
    | true =>
      rw [List.eraseP_cons_of_pos hp]
      exact hnd.2
    | false =>
      rw [List.eraseP_cons_of_neg (by simp [hp])]
      simp only [keysNodup, Bool.and_eq_true, Bool.not_eq_true', List.any_eq_false]
      refine ⟨?_, ih hnd.2⟩
      intro x hx
      exact hnd.1 x (List.mem_of_mem_eraseP hx)

theorem WF_delChild {n : TrieNode K} (k : K) (hw : WF n = true) :
    WF (n.delChild k) = true := by
  cases hhc : n.hasChild k with
  | false => simpa [delChild, hhc] using hw
  | true =>
    simp only [delChild, hhc, if_true]
    cases hlen : (n.childrenList.length == 1) with
    | true => rfl
    | false =>
      simp only [Bool.false_eq_true, if_false, WF, Bool.and_eq_true]
      have hfc : ∃ c, n.findChild k = some c := by
        simp only [hasChild] at hhc
        exact Option.isSome_iff_exists.mp hhc
      rcases hfc with ⟨c, hfc⟩
      have hmem : c ∈ n.childrenList := List.mem_of_find?_eq_some hfc
      have hpc : (fun x : TrieNode K => x.key == k) c = true := by
        simp only [beq_iff_eq]
        exact findChild_key hfc
      refine ⟨⟨?_, ?_⟩, ?_⟩
      · have hlen1 : n.childrenList.length ≠ 1 := by
          intro e
          rw [(beq_iff_eq (a := n.childrenList.length) (b := 1)).mpr e] at hlen
          exact Bool.true_eq_false.mp hlen
        have hpos : 0 < n.childrenList.length := List.length_pos.mpr (List.ne_nil_of_mem hmem)
        have herl : (n.childrenList.eraseP (fun x => x.key == k)).length =
            n.childrenList.length - 1 := List.length_eraseP_of_mem hmem hpc
        cases hE : (n.childrenList.eraseP (fun x => x.key == k)).isEmpty with
        | false => rfl
        | true =>
          have : n.childrenList.eraseP (fun x => x.key == k) = [] := List.isEmpty_iff.mp hE
          rw [this] at herl
          simp at herl
          omega
      · exact keysNodup_eraseP (WF_nodup hw)
      · exact WFL_eraseP (WF_WFL hw)

theorem removeAux_WF {s : List K} {isRoot : Bool} {n n' : TrieNode K} (hw : WF n = true)
    (h : (removeAux isRoot n s).1 = some n') : WF n' = true := by
  induction s generalizing isRoot n n' with
  | nil =>
    rw [removeAux_nil] at h
    cases hl : n.isleaf with
    | true =>
      rw [hl] at h
      simp only [if_true] at h
      split at h <;> simp only [Option.some.injEq] at h
      · rw [← h, WF_flag n.key false n.isleaf, eta]
        exact hw
      · exact absurd h (by simp)
    | false =>
      rw [hl] at h
      simp only [Bool.false_eq_true, if_false, Option.some.injEq] at h
      rw [← h]
      exact hw
  | cons k ks ih =>
    cases hfc : n.findChild k with
    | none =>
      rw [removeAux_cons_missing ks hfc] at h
      simp only [Option.some.injEq] at h
      rw [← h]
      exact hw
    | some c =>
      rcases hrec : removeAux false c ks with ⟨x, b⟩
      cases x with
      | some c' =>
        rw [removeAux_cons_found_some hfc hrec] at h
        simp only [Option.some.injEq] at h
        rw [← h]
        have hwc' : WF c' = true := ih (WF_findChild hw hfc) (by rw [hrec])
        have hk : c'.key = k := by
          rw [(removeAux_key (by rw [hrec]) : c'.key = c.key), findChild_key hfc]
        exact WF_setChild hw hfc hwc' hk
      | none =>
        cases hbv : boolVal isRoot (n.delChild k) with
        | true =>
          rw [removeAux_cons_found_none_kept hfc hrec hbv] at h
          simp only [Option.some.injEq] at h
          rw [← h]
          exact WF_delChild k hw
        | false =>
          rw [removeAux_cons_found_none_dropped hfc hrec hbv] at h
          exact absurd h (by simp)

theorem removeAux_contains_false {s : List K} {isRoot : Bool} {n n' : TrieNode K}
    (hw : WF n = true) (h1 : (removeAux isRoot n s).1 = some n')
    (h2 : (removeAux isRoot n s).2 = true) : leafAt (nodeAt n' s) = false := by
  induction s generalizing isRoot n n' with
  | nil =>
    rw [removeAux_nil] at h1 h2
    cases hl : n.isleaf with
    | true =>
      rw [hl] at h1
      simp only [if_true] at h1
      split at h1 <;> simp only [Option.some.injEq] at h1
      · rw [← h1]
        simp [nodeAt, leafAt]
      · exact absurd h1 (by simp)
    | false =>
      rw [hl] at h2
      simp at h2
  | cons k ks ih =>
    cases hfc : n.findChild k with
    | none =>
      rw [removeAux_cons_missing ks hfc] at h2
      simp at h2
    | some c =>
      rcases hrec : removeAux false c ks with ⟨x, b⟩
      cases x with
      | some c' =>
        rw [removeAux_cons_found_some hfc hrec] at h1 h2
        simp only [Option.some.injEq] at h1
        simp only at h2
        rw [← h1]
        have hk : c'.key = k := by
          rw [(removeAux_key (by rw [hrec]) : c'.key = c.key), findChild_key hfc]
        have hset : (n.setChild k c').findChild k = some c' := findChild_setChild_self hk hfc
        simp only [nodeAt, hset]
        exact ih (WF_findChild hw hfc) (by rw [hrec]) (by rw [hrec]; exact h2)
      | none =>
        cases hbv : boolVal isRoot (n.delChild k) with
        | false =>
          rw [removeAux_cons_found_none_dropped hfc hrec hbv] at h1
          exact absurd h1 (by simp)
        | true =>
          rw [removeAux_cons_found_none_kept hfc hrec hbv] at h1
          simp only [Option.some.injEq] at h1
          rw [← h1]
          have hdel : (n.delChild k).findChild k = none := findChild_delChild_self (WF_nodup hw)
          simp [nodeAt, hdel, leafAt]

theorem prunedCh_flag (a : K) (b b' : Bool) (so : Option (List (TrieNode K))) :
    prunedCh (TrieNode.mk a b so) = prunedCh (TrieNode.mk a b' so) := by
  cases so <;> rfl

theorem prunedCh_PL {n : TrieNode K} (hp : prunedCh n = true) :
    prunedChL n.childrenList = true := by
  cases n with
  | mk a b so =>
    cases so with
    | none => rfl
    | some l => simpa [prunedCh] using hp

theorem prunedCh_setChild {n : TrieNode K} {k : K} {c c' : TrieNode K}
    (hp : prunedChL n.childrenList = true)
    (hfc : n.findChild k = some c)
    (hf : (c'.isleaf || !c'.isempty) = true) (hpc : prunedCh c' = true) :
    prunedCh (n.setChild k c') = true := by
  have : prunedCh (n.setChild k c') = prunedChL (setList n.childrenList k c') := by
    simp [setChild, prunedCh]
  rw [this]
  exact prunedChL_setList hp hf hpc (by simpa [findChild] using hfc)

theorem prunedCh_delChild {n : TrieNode K} (k : K) (hp : prunedCh n = true) :
    prunedCh (n.delChild k) = true := by
  cases hhc : n.hasChild k with
  | false => simpa [delChild, hhc] using hp
  | true =>
    simp only [delChild, hhc, if_true]
    cases hlen : (n.childrenList.length == 1) with
    | true => rfl
    | false =>
      simp only [Bool.false_eq_true, if_false]
      have : prunedCh (TrieNode.mk n.key n.isleaf
          (some (n.childrenList.eraseP (fun c => c.key == k)))) =
          prunedChL (n.childrenList.eraseP (fun c => c.key == k)) := by
        simp [prunedCh]
      rw [this]
      exact prunedChL_eraseP (prunedCh_PL hp)

theorem addNode_pruned (s : List K) (n : TrieNode K) (hp : prunedCh n = true) :
    prunedCh (n.addNode s).1 = true ∧
      ((n.addNode s).1.isleaf || !(n.addNode s).1.isempty) = true := by
  induction s generalizing n with
  | nil =>
    cases hl : n.isleaf with
    | true =>
      simp only [addNode, hl, if_true]
      exact ⟨hp, by simp [hl]⟩
    | false =>
      simp only [addNode, hl, Bool.false_eq_true, if_false]
      constructor
      · rw [prunedCh_flag n.key true n.isleaf, eta]
        exact hp
      · simp
  | cons k ks ih =>
    rw [addNode_cons]
    simp only
    refine ⟨?_, by simp [setChild]⟩
    have hg : (n.getitem k).1.findChild k = some (n.getitem k).2 := findChild_getitem_fst n k
    have hck : ((n.getitem k).2.addNode ks).1.key = k := by
      rw [addNode_key, getitem_snd_key]
    cases hfc : n.findChild k with
    | some c =>
      have hpc2 : prunedCh (n.getitem k).2 = true := by
        rw [getitem_present hfc]
        exact (prunedChL_mem (prunedCh_PL hp) (List.mem_of_find?_eq_some hfc)).2
      have hih := ih _ hpc2
      have hp1 : prunedChL (n.getitem k).1.childrenList = true := by
        rw [getitem_present hfc]
        exact prunedCh_PL hp
      exact prunedCh_setChild hp1 hg hih.2 hih.1
    | none =>
      have hpc2 : prunedCh (n.getitem k).2 = true := by
        rw [getitem_absent hfc]
        rfl
      have hih := ih _ hpc2
      rw [getitem_absent hfc] at hg ⊢
      simp only at hg ⊢
      have hsl : setList ((TrieNode.mk n.key n.isleaf
          (some (n.childrenList ++ [TrieNode.mk k false none]))).childrenList) k
          (((TrieNode.mk k false (none : Option (List (TrieNode K)))).addNode ks).1) =
          n.childrenList ++ [((TrieNode.mk k false (none : Option (List (TrieNode K)))).addNode ks).1] := by
        rw [childrenList_mk_some]
        exact setList_append_fresh (by simpa [findChild] using hfc)
      have : prunedCh ((TrieNode.mk n.key n.isleaf
          (some (n.childrenList ++ [TrieNode.mk k false none]))).setChild k
          (((TrieNode.mk k false (none : Option (List (TrieNode K)))).addNode ks).1)) =
          prunedChL (n.childrenList ++
            [((TrieNode.mk k false (none : Option (List (TrieNode K)))).addNode ks).1]) := by
        simp only [setChild, prunedCh, hsl]
      rw [getitem_absent hfc] at hih
      simp only at hih
      rw [this]
      refine prunedChL_append (prunedCh_PL hp) ?_
      simp only [prunedChL, Bool.and_eq_true]
      exact ⟨⟨hih.2, hih.1⟩, by trivial⟩

theorem removeAux_pruned {s : List K} {isRoot : Bool} {n n' : TrieNode K} {b : Bool}
    (hp : prunedCh n = true) (h : removeAux isRoot n s = (some n', b)) :
    prunedCh n' = true ∧
      (isRoot = false → (n' = n ∨ (n'.isleaf || !n'.isempty) = true)) := by
  induction s generalizing isRoot n n' b with
  | nil =>
    rw [removeAux_nil] at h
    cases hl : n.isleaf with
    | false =>
      rw [hl] at h
      simp only [Bool.false_eq_true, if_false, Prod.mk.injEq, Option.some.injEq] at h
      rw [← h.1]
      exact ⟨hp, fun _ => Or.inl rfl⟩
    | true =>
      rw [hl] at h
      simp only [if_true] at h
      cases hbv2 : boolVal isRoot (TrieNode.mk n.key false n.suffixes) with
      | false =>
        rw [hbv2] at h
        simp at h
      | true =>
        rw [hbv2] at h
        simp only [if_true, Prod.mk.injEq, Option.some.injEq] at h
        rcases h with ⟨h1, _⟩
        rw [← h1]
        constructor
        · rw [prunedCh_flag n.key false n.isleaf, eta]
          exact hp
        · intro hr
          rw [hr] at hbv2
          simp only [boolVal, Bool.or_eq_true] at hbv2
          rcases hbv2 with hbv2 | hbv2
          · rcases hbv2 with hbv2 | hbv2
            · exact Or.inr (by simp [hbv2])
            · exact Or.inr (by simp [hbv2])
          · simp at hbv2
  | cons k ks ih =>
    cases hfc : n.findChild k with
    | none =>
      rw [removeAux_cons_missing ks hfc] at h
      simp only [Prod.mk.injEq, Option.some.injEq] at h
      rw [← h.1]
      exact ⟨hp, fun _ => Or.inl rfl⟩
    | some c =>
      rcases hrec : removeAux false c ks with ⟨x, b2⟩
      have hmem : c ∈ n.childrenList := List.mem_of_find?_eq_some hfc
      have hcflag := prunedChL_mem (prunedCh_PL hp) hmem
      cases x with
      | some c' =>
        rw [removeAux_cons_found_some hfc hrec] at h
        simp only [Prod.mk.injEq, Option.some.injEq] at h
        rw [← h.1]
        have hih := ih hcflag.2 hrec
        have hflag : (c'.isleaf || !c'.isempty) = true := by
          rcases hih.2 rfl with he | hf
          · rw [he]; exact hcflag.1
          · exact hf
        constructor
        · exact prunedCh_setChild (prunedCh_PL hp) hfc hflag hih.1
        · intro _
          exact Or.inr (by simp [setChild])
      | none =>
        cases hbv : boolVal isRoot (n.delChild k) with
        | false =>
          rw [removeAux_cons_found_none_dropped hfc hrec hbv] at h
          simp at h
        | true =>
          rw [removeAux_cons_found_none_kept hfc hrec hbv] at h
          simp only [Prod.mk.injEq, Option.some.injEq] at h
          rw [← h.1]
          refine ⟨prunedCh_delChild k hp, ?_⟩
          intro hr
          rw [hr] at hbv
          simp only [boolVal, Bool.or_eq_true] at hbv
          rcases hbv with hbv | hbv
          · rcases hbv with hbv | hbv
            · exact Or.inr (by simp [hbv])
            · exact Or.inr (by simp [hbv])
          · simp at hbv

theorem keylist_isEmpty {c : TrieNode K} (hw : WF c = true) :
    c.keylist.isEmpty = c.isempty := by
  cases c with
  | mk a b so =>
    cases so with
    | none => rfl
    | some l =>
      simp only [WF, Bool.and_eq_true, Bool.not_eq_true', List.isEmpty_eq_false] at hw
      simp only [keylist, childrenList_mk_some, isempty_mk_some]
      rw [List.isEmpty_eq_false]
      simp only [ne_eq, List.map_eq_nil_iff]
      exact hw.1.1

mutual

theorem prunedCh_noDead : ∀ n : TrieNode K, WF n = true → prunedCh n = true →
    noDeadNode n = true
  | .mk _ _ none, _, _ => rfl
  | .mk a b (some l), hw, hp => by
    have hwl : WFL l = true := by
      simp only [WF, Bool.and_eq_true] at hw
      exact hw.2
    have hpl : prunedChL l = true := by simpa [prunedCh] using hp
    show noDeadL l = true
    exact prunedChL_noDeadL l hwl hpl

theorem prunedChL_noDeadL : ∀ l : List (TrieNode K), WFL l = true → prunedChL l = true →
    noDeadL l = true
  | [], _, _ => rfl
  | c :: cs, hw, hp => by
    simp only [WFL, Bool.and_eq_true] at hw
    simp only [prunedChL, Bool.and_eq_true] at hp
    simp only [noDeadL, Bool.and_eq_true]
    refine ⟨⟨?_, prunedCh_noDead c hw.1 hp.1.2⟩, prunedChL_noDeadL cs hw.2 hp.2⟩
    rw [keylist_isEmpty hw.1]
    exact hp.1.1

end

theorem leafAt_nodeAt_fresh (ps : List K) (k : K) :
    leafAt (nodeAt (TrieNode.mk k false (none : Option (List (TrieNode K)))) ps) = false := by
  cases ps with
  | nil => rfl
  | cons j js => simp [nodeAt, findChild, childrenList, leafAt]

theorem addNode_true_iff (s : List K) (n : TrieNode K) :
    (n.addNode s).2 = !(n.containsS s).2 := by
  induction s generalizing n with
  | nil => cases hl : n.isleaf <;> simp [addNode, containsS, hl]
  | cons k ks ih =>
    rw [addNode_cons]
    simp only
    cases hfc : n.findChild k with
    | some c =>
      rw [containsS_cons_found ks hfc, getitem_present hfc]
      exact ih c
    | none =>
      rw [containsS_cons_missing ks hfc, getitem_absent hfc]
      simp only
      rw [addNode_fresh_true]
      rfl

theorem leafAt_nodeAt_addNode (s : List K) (p : List K) (n : TrieNode K) :
    leafAt (nodeAt (n.addNode s).1 p) = (decide (p = s) || leafAt (nodeAt n p)) := by
  induction s generalizing n p with
  | nil =>
    cases hl : n.isleaf with
    | true =>
      simp only [addNode, hl, if_true]
      cases p with
      | nil => simp [nodeAt, leafAt, hl]
      | cons j js => simp
    | false =>
      simp only [addNode, hl, Bool.false_eq_true, if_false]
      cases p with
      | nil => simp [nodeAt, leafAt]
      | cons j js =>
        have hch : (TrieNode.mk n.key true n.suffixes).findChild j = n.findChild j := rfl
        simp only [nodeAt, hch]
        simp
  | cons k ks ih =>
    rw [addNode_cons]
    simp only
    have hg : (n.getitem k).1.findChild k = some (n.getitem k).2 := findChild_getitem_fst n k
    have hck : ((n.getitem k).2.addNode ks).1.key = k := by
      rw [addNode_key, getitem_snd_key]
    cases p with
    | nil =>
      simp only [nodeAt, leafAt, setChild_isleaf]
      rw [getitem_fst_isleaf]
      simp [nodeAt, leafAt]
    | cons j js =>
      by_cases hjk : j = k
      · subst hjk
        have hset : (((n.getitem j).1).setChild j ((n.getitem j).2.addNode ks).1).findChild j =
            some ((n.getitem j).2.addNode ks).1 := findChild_setChild_self hck hg
        simp only [nodeAt, hset]
        rw [ih]
        cases hfc : n.findChild j with
        | some c =>
          rw [getitem_present hfc]
          simp only [nodeAt, hfc]
          simp [List.cons.injEq]
        | none =>
          rw [getitem_absent hfc]
          simp only
          rw [leafAt_nodeAt_fresh]
          simp [leafAt, List.cons.injEq]
      · have h1 : (((n.getitem k).1).setChild k ((n.getitem k).2.addNode ks).1).findChild j =
            (n.getitem k).1.findChild j := findChild_setChild_ne hck hjk
        have h2 : (n.getitem k).1.findChild j = n.findChild j := findChild_getitem_fst_ne hjk
        simp only [nodeAt, h1, h2]
        have : decide ((j :: js) = (k :: ks)) = false := by
          simp [List.cons.injEq, hjk]
        rw [this]
        simp

end TrieNode

namespace Trie

open TrieNode

variable {K : Type} [DecidableEq K]

theorem add_snd (t : Trie K) (item : List K) :
    (t.add item).2 = (t.root.addNode item).2 := by
  simp only [Trie.add]
  rcases h : t.root.addNode item with ⟨r, b⟩
  cases b <;> rfl

theorem add_root (t : Trie K) (item : List K) :
    (t.add item).1.root = (t.root.addNode item).1 := by
  simp only [Trie.add]
  rcases h : t.root.addNode item with ⟨r, b⟩
  cases b <;> rfl

theorem add_len (t : Trie K) (item : List K) :
    (t.add item).1.len =
      (if (t.root.addNode item).2 = true then t.len + 1 else t.len) := by
  simp only [Trie.add]
  rcases h : t.root.addNode item with ⟨r, b⟩
  cases b <;> rfl

theorem remove_eq_of_some {t : Trie K} {item : List K} {r : TrieNode K} {b : Bool}
    (h : t.root.removeAux true item = (some r, b)) :
    t.remove item = (⟨r, if b = true then t.len - 1 else t.len⟩, b) := by
  cases b <;> simp [Trie.remove, h]

theorem remove_snd (t : Trie K) (item : List K) :
    (t.remove item).2 = (t.root.removeAux true item).2 := by
  simp only [Trie.remove]
  rcases h : t.root.removeAux true item with ⟨x, b⟩
  rcases x with _ | r <;> cases b <;> rfl

theorem containsB_fst (t : Trie K) (item : List K) : (t.containsB item).1 = t := by
  simp only [Trie.containsB]
  rcases h : t.root.containsS item with ⟨r, b⟩
  have hc := containsS_fst item t.root
  rw [h] at hc
  simp only at hc
  rw [hc]

theorem containsB_snd (t : Trie K) (item : List K) :
    (t.containsB item).2 = leafAt (nodeAt t.root item) := by
  simp only [Trie.containsB]
  rcases h : t.root.containsS item with ⟨r, b⟩
  have hc := containsS_snd item t.root
  rw [h] at hc
  exact hc

theorem applyOp_inv (t : Trie K) (op : TrieOp K)
    (h1 : WF t.root = true) (h2 : prunedCh t.root = true)
    (h3 : t.len = (countLeaves t.root : Int)) :
    WF (t.applyOp op).root = true ∧ prunedCh (t.applyOp op).root = true ∧
      (t.applyOp op).len = (countLeaves (t.applyOp op).root : Int) := by
  cases op with
  | add item =>
    simp only [Trie.applyOp]
    rw [add_root, add_len] at *
    refine ⟨addNode_WF item t.root h1, (addNode_pruned item t.root h2).1, ?_⟩
    have hc := addNode_count item t.root
    cases hb : (t.root.addNode item).2 with
    | true =>
      rw [hb] at hc
      simp only [if_true] at hc ⊢
      rw [hc, h3]
      push_cast
      ring
    | false =>
      rw [hb] at hc
      simp only [Bool.false_eq_true, if_false] at hc ⊢
      rw [hc, h3]
      push_cast
      ring
  | remove item =>
    simp only [Trie.applyOp]
    rcases hr : (t.root.removeAux true item).1 with _ | r
    · rcases removeAux_root_some item t.root with ⟨r', hr'⟩
      rw [hr] at hr'
      simp at hr'
    · rcases hrem : t.root.removeAux true item with ⟨x, b⟩
      rw [hrem] at hr
      simp only at hr
      subst hr
      rw [remove_eq_of_some hrem]
      simp only
      refine ⟨removeAux_WF h1 (by rw [hrem]), (removeAux_pruned h2 hrem).1, ?_⟩
      have hc := removeAux_count item true t.root
      rw [hrem] at hc
      simp only [countLeavesO] at hc
      cases b with
      | true =>
        simp only [if_true] at hc ⊢
        rw [h3]
        omega
      | false =>
        simp only [Bool.false_eq_true, if_false] at hc ⊢
        rw [h3]
        omega

theorem applyOps_inv (ops : List (TrieOp K)) (t : Trie K)
    (h1 : WF t.root = true) (h2 : prunedCh t.root = true)
    (h3 : t.len = (countLeaves t.root : Int)) :
    WF (t.applyOps ops).root = true ∧ prunedCh (t.applyOps ops).root = true ∧
      (t.applyOps ops).len = (countLeaves (t.applyOps ops).root : Int) := by
  induction ops generalizing t with
  | nil => exact ⟨h1, h2, h3⟩
  | cons op ops ih =>
    have hstep := applyOp_inv t op h1 h2 h3
    have : Trie.applyOps t (op :: ops) = Trie.applyOps (t.applyOp op) ops := rfl
    rw [this]
    exact ih (t.applyOp op) hstep.1 hstep.2.1 hstep.2.2

theorem mkEmpty_inv (e : K) :
    WF (Trie.mkEmpty e).root = true ∧ prunedCh (Trie.mkEmpty e).root = true ∧
      (Trie.mkEmpty e).len = (countLeaves (Trie.mkEmpty e).root : Int) := by
  refine ⟨rfl, rfl, ?_⟩
  simp [Trie.mkEmpty, countLeaves]

theorem leafAt_addAll (L : List (List K)) (p : List K) (t : Trie K) :
    leafAt (nodeAt (t.addAll L).root p) =
      (decide (p ∈ L) || leafAt (nodeAt t.root p)) := by
  induction L generalizing t with
  | nil => simp [Trie.addAll]
  | cons s L ih =>
    have hstep : Trie.addAll t (s :: L) = Trie.addAll (t.add s).1 L := rfl
    rw [hstep, ih, add_root, leafAt_nodeAt_addNode]
    have : decide (p ∈ s :: L) = (decide (p = s) || decide (p ∈ L)) := by
      simp [List.mem_cons]
    rw [this]
    cases decide (p = s) <;> cases decide (p ∈ L) <;>
      cases leafAt (nodeAt t.root p) <;> rfl

end Trie

namespace TrieNode

variable {K : Type}

theorem specLeafPaths_eq (n : TrieNode K) (path : List K) :
    specLeafPaths n path = (if n.isleaf then [path ++ [n.key]] else []) ++
      specLeafPathsL n.childrenList (path ++ [n.key]) := by
  cases n with
  | mk a b so =>
    cases so with
    | none => simp [specLeafPaths, specLeafPathsL]
    | some l => simp [specLeafPaths]

theorem mem_specLeafPathsL {l : List (TrieNode K)} {path : List K} {x : List K} :
    x ∈ specLeafPathsL l path ↔ ∃ c ∈ l, x ∈ specLeafPaths c path := by
  induction l with
  | nil => simp [specLeafPathsL]
  | cons c cs ih =>
    simp only [specLeafPathsL, List.mem_append, ih, List.mem_cons]
    constructor
    · rintro (h | ⟨d, hd, hx⟩)
      · exact ⟨c, Or.inl rfl, h⟩
      · exact ⟨d, Or.inr hd, hx⟩
    · rintro ⟨d, hd | hd, hx⟩
      · subst hd
        exact Or.inl hx
      · exact Or.inr ⟨d, hd, hx⟩

theorem heightL_mem {l : List (TrieNode K)} {c : TrieNode K} (hc : c ∈ l) :
    heightN c ≤ heightL l := by
  induction l with
  | nil => simp at hc
  | cons a as ih =>
    rcases List.mem_cons.mp hc with h | h
    · subst h
      simp [heightL, Nat.le_max_left]
    · simp only [heightL]
      exact le_trans (ih h) (Nat.le_max_right _ _)

theorem height_child {n : TrieNode K} {c : TrieNode K} (hc : c ∈ n.childrenList) :
    heightN c < heightN n := by
  cases n with
  | mk a b so =>
    cases so with
    | none => simp at hc
    | some l =>
      simp only [childrenList_mk_some] at hc
      have := heightL_mem hc
      simp only [heightN]
      omega

theorem nodeCount_pos (n : TrieNode K) : 1 ≤ nodeCount n := by
  cases n with
  | mk a b so => cases so <;> simp [nodeCount]

theorem nodeCountL_eq_sum (l : List (TrieNode K)) :
    nodeCountL l = (l.map nodeCount).sum := by
  induction l with
  | nil => rfl
  | cons c cs ih => simp [nodeCountL, ih]

theorem nodeCount_eq (n : TrieNode K) : nodeCount n = nodeCountL n.childrenList + 1 := by
  cases n with
  | mk a b so => cases so <;> simp [nodeCount, nodeCountL]

section Sorted

variable [DecidableEq K]

theorem map_getitem_snd {n : TrieNode K} (hnd : keysNodup n.childrenList = true) :
    n.keylist.map (fun k => (n.getitem k).2) = n.childrenList := by
  rw [keylist, List.map_map]
  conv =>
    rhs
    rw [← List.map_id n.childrenList]
  apply List.map_congr_left
  intro c hc
  simp only [Function.comp_apply, List.map_id, id_eq]
  have hfc : n.findChild c.key = some c := by
    simp only [findChild]
    exact find?_key_self hnd hc
  rw [getitem_present hfc]

theorem sorter_children_perm {sorter : List K → List K}
    (hperm : ∀ l : List K, (sorter l).Perm l)
    {n : TrieNode K} (hnd : keysNodup n.childrenList = true) :
    ((sorter n.keylist).map (fun k => (n.getitem k).2)).Perm n.childrenList := by
  have h1 := (hperm n.keylist).map (fun k => (n.getitem k).2)
  rw [map_getitem_snd hnd] at h1
  exact h1

end Sorted

end TrieNode

namespace TrieNode

variable {K : Type} [DecidableEq K]

theorem dfs_mem {sorter : List K → List K} (hperm : ∀ l : List K, (sorter l).Perm l) :
    ∀ (fuel : Nat) (n : TrieNode K) (path : List K) (x : List K), WF n = true →
      heightN n < fuel →
      (x ∈ dfsNodes sorter fuel n path ↔ x ∈ specLeafPaths n path) := by
  intro fuel
  induction fuel with
  | zero =>
    intro n path x hw hh
    omega
  | succ f ih =>
    intro n path x hw hh
    rw [specLeafPaths_eq]
    simp only [dfsNodes, List.mem_append, List.mem_flatMap]
    apply or_congr Iff.rfl
    rw [mem_specLeafPathsL]
    constructor
    · rintro ⟨k, hk, hx⟩
      have hmem : (n.getitem k).2 ∈ n.childrenList := by
        have hp := sorter_children_perm hperm (WF_nodup hw)
        exact hp.mem_iff.mp (List.mem_map_of_mem _ hk)
      refine ⟨(n.getitem k).2, hmem, ?_⟩
      rw [← ih _ _ x (WF_children hw hmem) (by have := height_child hmem; omega)]
      exact hx
    · rintro ⟨c, hc, hx⟩
      have hmm : c ∈ (sorter n.keylist).map (fun k => (n.getitem k).2) :=
        (sorter_children_perm hperm (WF_nodup hw)).mem_iff.mpr hc
      rcases List.mem_map.mp hmm with ⟨k, hk, hfk⟩
      refine ⟨k, hk, ?_⟩
      have hmem : (n.getitem k).2 ∈ n.childrenList := by
        rw [hfk]
        exact hc
      rw [ih _ _ x (WF_children hw hmem) (by have := height_child hmem; omega)]
      rw [hfk]
      exact hx

theorem bfs_mem {sorter : List K → List K} (hperm : ∀ l : List K, (sorter l).Perm l) :
    ∀ (fuel : Nat) (queue : List (List K × TrieNode K)) (x : List K),
      (∀ e ∈ queue, WF e.2 = true) →
      (queue.map (fun e => nodeCount e.2)).sum ≤ fuel →
      (x ∈ bfsNodes sorter fuel queue ↔ ∃ e ∈ queue, x ∈ specLeafPaths e.2 e.1) := by
  intro fuel
  induction fuel with
  | zero =>
    intro queue x hwq hq
    cases queue with
    | nil => simp [bfsNodes]
    | cons e q =>
      exfalso
      simp only [List.map_cons, List.sum_cons] at hq
      have := nodeCount_pos e.2
      omega
  | succ f ih =>
    intro queue x hwq hq
    cases queue with
    | nil => simp [bfsNodes]
    | cons e q =>
      rcases e with ⟨path, n⟩
      have hwn : WF n = true := hwq (path, n) (by simp)
      have hperm2 := sorter_children_perm hperm (WF_nodup hwn)
      simp only [bfsNodes, List.mem_append]
      have hw' : ∀ e2 ∈ q ++ (sorter n.keylist).map
          (fun k => (path ++ [n.key], (n.getitem k).2)), WF e2.2 = true := by
        intro e2 he2
        rcases List.mem_append.mp he2 with h | h
        · exact hwq e2 (by simp [h])
        · rcases List.mem_map.mp h with ⟨k, hk, hke⟩
          have hmem : (n.getitem k).2 ∈ n.childrenList :=
            hperm2.mem_iff.mp (List.mem_map_of_mem _ hk)
          rw [← hke]
          exact WF_children hwn hmem
      have hsum : (((sorter n.keylist).map
          (fun k => (path ++ [n.key], (n.getitem k).2))).map
            (fun e => nodeCount e.2)).sum = nodeCountL n.childrenList := by
        rw [List.map_map]
        have h1 : ((fun e : List K × TrieNode K => nodeCount e.2) ∘
            (fun k => (path ++ [n.key], (n.getitem k).2))) =
            (fun k => nodeCount (n.getitem k).2) := rfl
        rw [h1]
        have h2 : ((sorter n.keylist).map (fun k => nodeCount (n.getitem k).2)) =
            (((sorter n.keylist).map (fun k => (n.getitem k).2)).map nodeCount) := by
          rw [List.map_map]
          rfl
        rw [h2, (hperm2.map nodeCount).sum_eq, ← nodeCountL_eq_sum]
      have hq' : ((q ++ (sorter n.keylist).map
          (fun k => (path ++ [n.key], (n.getitem k).2))).map
            (fun e => nodeCount e.2)).sum ≤ f := by
        rw [List.map_append, List.sum_append, hsum]
        simp only [List.map_cons, List.sum_cons] at hq
        have := nodeCount_eq n
        omega
      rw [ih _ x hw' hq']
      constructor
      · rintro (h | h)
        · refine ⟨(path, n), by simp, ?_⟩
          rw [specLeafPaths_eq]
          simp only [List.mem_append]
          exact Or.inl h
        · rcases h with ⟨e2, he2, hx⟩
          rcases List.mem_append.mp he2 with h | h
          · exact ⟨e2, by simp [h], hx⟩
          · rcases List.mem_map.mp h with ⟨k, hk, hke⟩
            refine ⟨(path, n), by simp, ?_⟩
            rw [specLeafPaths_eq]
            simp only [List.mem_append]
            right
            rw [mem_specLeafPathsL]
            have hmem : (n.getitem k).2 ∈ n.childrenList :=
              hperm2.mem_iff.mp (List.mem_map_of_mem _ hk)
            refine ⟨(n.getitem k).2, hmem, ?_⟩
            rw [← hke] at hx
            exact hx
      · rintro ⟨e2, he2, hx⟩
        rcases List.mem_cons.mp he2 with h | h
        · subst h
          simp only at hx
          rw [specLeafPaths_eq] at hx
          rcases List.mem_append.mp hx with h | h
          · exact Or.inl h
          · right
            rw [mem_specLeafPathsL] at h
            rcases h with ⟨c, hc, hxc⟩
            have hmm : c ∈ (sorter n.keylist).map (fun k => (n.getitem k).2) :=
              hperm2.mem_iff.mpr hc
            rcases List.mem_map.mp hmm with ⟨k, hk, hfk⟩
            refine ⟨(path ++ [n.key], (n.getitem k).2), ?_, ?_⟩
            · apply List.mem_append.mpr
              right
              exact List.mem_map_of_mem _ hk
            · simp only
              rw [hfk]
              exact hxc
        · exact Or.inr ⟨e2, List.mem_append.mpr (Or.inl h), hx⟩

end TrieNode

theorem trie_eq {K : Type} (t t' : Trie K) (h1 : t.root = t'.root) (h2 : t.len = t'.len) :
    t = t' := by
  cases t
  cases t'
  simp_all

/-- C1: leaf-count invariant.  Starting from a freshly constructed Trie,
after every finite sequence of `add`/`remove` calls the stored `len`
equals the number of nodes reachable from the root whose leaf flag is
true (the full-traversal leaf count). -/
theorem c1_leaf_count_invariant {K : Type} [DecidableEq K] (e : K) (ops : List (TrieOp K)) :
    ((Trie.mkEmpty e).applyOps ops).len =
      (TrieNode.countLeaves ((Trie.mkEmpty e).applyOps ops).root : Int) := by
  have hm := Trie.mkEmpty_inv e
  exact (Trie.applyOps_inv ops (Trie.mkEmpty e) hm.1 hm.2.1 hm.2.2).2.2

/-- C2: pruning invariant.  Starting from a freshly constructed Trie,
after every completed `add` or `remove` call no reachable node other
than the root is simultaneously a non-leaf and childless; the deletion
itself is performed bottom-up by the embedded `removeAux`, which stops
at the first node whose truth value (leaf, has children, or root) is
true. -/
theorem c2_pruning_invariant {K : Type} [DecidableEq K] (e : K) (ops : List (TrieOp K)) :
    TrieNode.noDeadNode ((Trie.mkEmpty e).applyOps ops).root = true := by
  have hm := Trie.mkEmpty_inv e
  have h := Trie.applyOps_inv ops (Trie.mkEmpty e) hm.1 hm.2.1 hm.2.2
  exact TrieNode.prunedCh_noDead _ h.1 h.2.1

/-- C3: round trip and remove inverse.  In any well-formed Trie state in
which `s` is not currently a leaf, `add s` returns true, `contains s`
then returns true, a subsequent `remove s` returns true, after which
`contains s` returns false and `len` equals its value before the add. -/
theorem c3_round_trip_remove_inverse {K : Type} [DecidableEq K] (t : Trie K) (s : List K)
    (hw : TrieNode.WF t.root = true) (h : (t.containsB s).2 = false) :
    (t.add s).2 = true ∧
    (((t.add s).1).containsB s).2 = true ∧
    (((t.add s).1).remove s).2 = true ∧
    (((((t.add s).1).remove s).1).containsB s).2 = false ∧
    ((((t.add s).1).remove s).1).len = t.len := by
  rw [Trie.containsB_snd] at h
  have hadd : (t.add s).2 = true := by
    rw [Trie.add_snd, TrieNode.addNode_true_iff, TrieNode.containsS_snd, h]
    rfl
  have haddb : (t.root.addNode s).2 = true := by
    rw [← Trie.add_snd]
    exact hadd
  have hcontains : (((t.add s).1).containsB s).2 = true := by
    rw [Trie.containsB_snd, Trie.add_root, TrieNode.leafAt_nodeAt_addNode]
    simp
  have hwf1 : TrieNode.WF ((t.add s).1).root = true := by
    rw [Trie.add_root]
    exact TrieNode.addNode_WF s t.root hw
  have hrsnd : (((t.add s).1).remove s).2 = true := by
    rw [Trie.remove_snd, TrieNode.removeAux_snd, Trie.add_root,
      TrieNode.leafAt_nodeAt_addNode]
    simp
  rcases TrieNode.removeAux_root_some s ((t.add s).1).root with ⟨r, hr⟩
  rcases hrem : ((t.add s).1).root.removeAux true s with ⟨x, b⟩
  rw [hrem] at hr
  simp only at hr
  subst hr
  have hb : b = true := by
    rw [Trie.remove_snd, hrem] at hrsnd
    exact hrsnd
  subst hb
  rw [Trie.remove_eq_of_some hrem]
  refine ⟨hadd, hcontains, rfl, ?_, ?_⟩
  · rw [Trie.containsB_snd]
    simp only
    exact TrieNode.removeAux_contains_false hwf1 (by rw [hrem]) (by rw [hrem])
  · simp only [if_true]
    rw [Trie.add_len, haddb]
    simp only [if_true]
    ring

/-- C4: idempotence of add.  For a key sequence that is not currently a
leaf, `add` returns true then false; the second call changes nothing at
all, and `len` increases by exactly 1 across both calls. -/
theorem c4_add_idempotent {K : Type} [DecidableEq K] (t : Trie K) (s : List K)
    (h : (t.containsB s).2 = false) :
    (t.add s).2 = true ∧
    (((t.add s).1).add s).2 = false ∧
    (((t.add s).1).add s).1 = (t.add s).1 ∧
    (((t.add s).1).add s).1.len = t.len + 1 := by
  rw [Trie.containsB_snd] at h
  have hadd : (t.add s).2 = true := by
    rw [Trie.add_snd, TrieNode.addNode_true_iff, TrieNode.containsS_snd, h]
    rfl
  have haddb : (t.root.addNode s).2 = true := by
    rw [← Trie.add_snd]
    exact hadd
  have hsnd2 : (((t.add s).1).add s).2 = false := by
    rw [Trie.add_snd, TrieNode.addNode_true_iff, TrieNode.containsS_snd, Trie.add_root,
      TrieNode.leafAt_nodeAt_addNode]
    simp
  have hb2 : (((t.add s).1).root.addNode s).2 = false := by
    rw [← Trie.add_snd]
    exact hsnd2
  have heq : (((t.add s).1).add s).1 = (t.add s).1 := by
    apply trie_eq
    · rw [Trie.add_root, TrieNode.addNode_false s _ hb2]
    · rw [Trie.add_len, hb2]
      simp
  refine ⟨hadd, hsnd2, heq, ?_⟩
  rw [heq, Trie.add_len, haddb]
  simp

/-- C6: missing-path handling.  When the key path is absent, `remove`
and `contains` return false and leave the trie completely unchanged
(the functions are total, so no exception is possible); a present path
ending in a non-leaf likewise makes `remove` return false without
mutation. -/
theorem c6_missing_path_no_mutation {K : Type} [DecidableEq K] (t : Trie K) (s : List K) :
    (TrieNode.nodeAt t.root s = none →
      (t.remove s).2 = false ∧ (t.remove s).1 = t ∧
      (t.containsB s).2 = false ∧ (t.containsB s).1 = t) ∧
    (∀ m : TrieNode K, TrieNode.nodeAt t.root s = some m → m.isleaf = false →
      (t.remove s).2 = false ∧ (t.remove s).1 = t) := by
  have hremove : ∀ hleaf : TrieNode.leafAt (TrieNode.nodeAt t.root s) = false,
      (t.remove s).2 = false ∧ (t.remove s).1 = t := by
    intro hleaf
    have hsnd : (t.remove s).2 = false := by
      rw [Trie.remove_snd, TrieNode.removeAux_snd, hleaf]
    refine ⟨hsnd, ?_⟩
    rw [Trie.remove_snd] at hsnd
    have hst := TrieNode.removeAux_false_state s true t.root hsnd
    rcases hrem : t.root.removeAux true s with ⟨x, b⟩
    rw [hrem] at hst hsnd
    simp only at hst hsnd
    subst hst
    subst hsnd
    rw [Trie.remove_eq_of_some hrem]
    simp only [Bool.false_eq_true, if_false]
  constructor
  · intro hnone
    have hleaf : TrieNode.leafAt (TrieNode.nodeAt t.root s) = false := by
      rw [hnone]
      rfl
    refine ⟨(hremove hleaf).1, (hremove hleaf).2, ?_, Trie.containsB_fst t s⟩
    rw [Trie.containsB_snd, hleaf]
  · intro m hsome hm
    have hleaf : TrieNode.leafAt (TrieNode.nodeAt t.root s) = false := by
      rw [hsome]
      simpa [TrieNode.leafAt] using hm
    exact hremove hleaf

/-- C7: membership is exact leafness.  `contains` returns the leaf flag
of the node reached by following the sequence from the root (false when
the path is absent); after only `add` calls on a fresh trie,
`contains p` holds exactly when `p` itself was added (so an uninserted
strict prefix yields false); and on an empty trie `contains []` is
false. -/
theorem c7_membership_is_leafness {K : Type} [DecidableEq K] :
    (∀ (t : Trie K) (s : List K),
      (t.containsB s).2 = TrieNode.leafAt (TrieNode.nodeAt t.root s)) ∧
    (∀ (e : K) (L : List (List K)) (p : List K),
      (((Trie.mkEmpty e).addAll L).containsB p).2 = decide (p ∈ L)) ∧
    (∀ e : K, ((Trie.mkEmpty e).containsB []).2 = false) := by
  refine ⟨fun t s => Trie.containsB_snd t s, ?_, fun e => rfl⟩
  intro e L p
  rw [Trie.containsB_snd, Trie.leafAt_addAll]
  have : TrieNode.leafAt (TrieNode.nodeAt (Trie.mkEmpty e).root p) = false :=
    TrieNode.leafAt_nodeAt_fresh p e
  rw [this]
  simp

/-- C10: `contains` is pure.  For every key sequence and every trie
state, the state returned by the state-threaded embedding of
`__contains__` is the original trie: no node is created or deleted, no
leaf flag changes, and `len` is unchanged. -/
theorem c10_contains_pure {K : Type} [DecidableEq K] (t : Trie K) (s : List K) :
    (t.containsB s).1 = t :=
  Trie.containsB_fst t s

/-- C5: iteration completeness.  For every well-formed trie state, any
non-filtering sorter (a permutation of its input) and any joiner, the
set of values produced by the traversal equals the set of joiner-applied
root-to-leaf key paths of the currently inserted leaves, in depth-first
and in breadth-first mode alike (with enough fuel for the embedded
generators: more than the tree height for DFS, at least the node count
for BFS). -/
theorem c5_iteration_completeness {K T : Type} [DecidableEq K]
    (t : Trie K) (sorter : List K → List K) (joiner : List K → T)
    (hperm : ∀ l : List K, (sorter l).Perm l) (hw : TrieNode.WF t.root = true)
    (fd fb : Nat) (hfd : TrieNode.heightN t.root < fd)
    (hfb : TrieNode.nodeCount t.root ≤ fb) (x : T) :
    (x ∈ t.iterList sorter joiner true fd ↔
      x ∈ (TrieNode.specLeafPaths t.root []).map joiner) ∧
    (x ∈ t.iterList sorter joiner false fb ↔
      x ∈ (TrieNode.specLeafPaths t.root []).map joiner) := by
  constructor
  · simp only [Trie.iterList, if_true, List.mem_map]
    constructor
    · rintro ⟨p, hp, hj⟩
      exact ⟨p, (TrieNode.dfs_mem hperm fd t.root [] p hw hfd).mp hp, hj⟩
    · rintro ⟨p, hp, hj⟩
      exact ⟨p, (TrieNode.dfs_mem hperm fd t.root [] p hw hfd).mpr hp, hj⟩
  · have hq : ∀ e ∈ [(([] : List K), t.root)], TrieNode.WF e.2 = true := by
      intro e he
      simp only [List.mem_singleton] at he
      rw [he]
      exact hw
    have hs : (([(([] : List K), t.root)]).map
        (fun e => TrieNode.nodeCount e.2)).sum ≤ fb := by
      simpa using hfb
    simp only [Trie.iterList, Bool.false_eq_true, if_false, List.mem_map]
    constructor
    · rintro ⟨p, hp, hj⟩
      have := (TrieNode.bfs_mem hperm fb [(([] : List K), t.root)] p hq hs).mp hp
      rcases this with ⟨e, he, hx⟩
      simp only [List.mem_singleton] at he
      rw [he] at hx
      exact ⟨p, hx, hj⟩
    · rintro ⟨p, hp, hj⟩
      refine ⟨p, ?_, hj⟩
      rw [TrieNode.bfs_mem hperm fb [(([] : List K), t.root)] p hq hs]
      exact ⟨(([] : List K), t.root), by simp, hp⟩

/-- C8 counterexample: the default path joiner does not match the
claimed description.  A leading `"."` segment is relative, so the claim
joins all segments including the empty root key, but the code emits
`"."` and drops the root; and an absolute first segment is stripped of
trailing backslashes, not of trailing platform separators. -/
theorem c8_counterexample :
    pathJoiner ["", ".", "a"] ≠ claimedPathJoiner ["", ".", "a"] ∧
    pathJoiner ["", "/b/"] ≠ claimedPathJoiner ["", "/b/"] := by
  constructor <;> decide

/-- C8 amended: the default path joiner of the path-trie factory returns
the bare separator for the root-only list; emits `"."` joined with the
remaining segments (root key omitted) when the first real segment is
`"."`; emits an absolute first segment verbatim stripped of trailing
backslashes, joined with the remaining segments; and otherwise joins all
segments (the empty root key included) with the platform separator. -/
theorem c8_amended_path_joiner : ∀ parts : List String,
    pathJoiner parts = amendedPathJoiner parts := by
  intro parts
  match parts with
  | [] => rfl
  | [root] => rfl
  | root :: first :: others =>
    have hdot : (String.data ".").map (fun c => String.singleton c) = ["."] := rfl
    simp only [pathJoiner, amendedPathJoiner]
    by_cases h1 : first = "."
    · rw [if_pos h1, if_pos h1, hdot]
      rfl
    · rw [if_neg h1, if_neg h1]
      by_cases h2 : pyIsAbs first = true
      · rw [if_pos h2, if_pos h2]
        rfl
      · rw [if_neg h2, if_neg h2]
        rfl

/-- C9: the debug dump renders each node through `_TrieNode.__repr__`
(the constructor-style line), not through `_TrieNode.__str__` (the
documented key-repr-plus-asterisk form): at a single leaf node with key
`"a"` the two renderings differ for every possible parent descriptor. -/
theorem c9_repr_not_key_marker : ∀ pd : String,
    TrieNode.nodeReprFmt TrieNode.pyStrRepr pd
        (TrieNode.mk "a" true (none : Option (List (TrieNode String)))) ≠
      TrieNode.nodeStr TrieNode.pyStrRepr
        (TrieNode.mk "a" true (none : Option (List (TrieNode String)))) := by
  intro pd h
  have hlen := congrArg String.length h
  simp only [TrieNode.nodeReprFmt, TrieNode.nodeStr, String.length_append] at hlen
  have e1 : ("_TrieNode(key=" : String).length = 14 := by decide
  have e2 : (TrieNode.pyStrRepr
      (TrieNode.mk "a" true (none : Option (List (TrieNode String)))).key).length = 3 := by
    decide
  have e3 : (", parent=" : String).length = 9 := by decide
  have e4 : (", isleaf=" : String).length = 9 := by decide
  have e5 : ((if (TrieNode.mk "a" true
      (none : Option (List (TrieNode String)))).isleaf then "True" else "False") :
      String).length = 4 := by decide
  have e6 : (")" : String).length = 1 := by decide
  have e7 : ((if (TrieNode.mk "a" true
      (none : Option (List (TrieNode String)))).isleaf then "*" else "") :
      String).length = 1 := by decide
  rw [e1, e2, e3, e4, e5, e6, e7] at hlen
  omega

/-- Witness for C3 at a concrete input: the empty Nat trie and the key
sequence `[1, 2]`. -/
theorem c3_witness :
    TrieNode.WF (Trie.mkEmpty 0 : Trie Nat).root = true ∧
    ((Trie.mkEmpty 0 : Trie Nat).containsB [1, 2]).2 = false ∧
    (((Trie.mkEmpty 0 : Trie Nat).add [1, 2]).2 = true ∧
     ((((Trie.mkEmpty 0 : Trie Nat).add [1, 2]).1).containsB [1, 2]).2 = true ∧
     ((((Trie.mkEmpty 0 : Trie Nat).add [1, 2]).1).remove [1, 2]).2 = true ∧
     ((((((Trie.mkEmpty 0 : Trie Nat).add [1, 2]).1).remove [1, 2]).1).containsB [1, 2]).2 = false ∧
     (((((Trie.mkEmpty 0 : Trie Nat).add [1, 2]).1).remove [1, 2]).1).len =
       (Trie.mkEmpty 0 : Trie Nat).len) :=
  ⟨by decide, by decide,
    c3_round_trip_remove_inverse (Trie.mkEmpty 0) [1, 2] (by decide) (by decide)⟩

/-- Witness for C4 at a concrete input: a Nat trie holding `[1, 3]` and
the key sequence `[1, 2]`. -/
theorem c4_witness :
    ((((Trie.mkEmpty 0 : Trie Nat).add [1, 3]).1).containsB [1, 2]).2 = false ∧
    (((((Trie.mkEmpty 0 : Trie Nat).add [1, 3]).1).add [1, 2]).2 = true ∧
     ((((((Trie.mkEmpty 0 : Trie Nat).add [1, 3]).1).add [1, 2]).1).add [1, 2]).2 = false ∧
     ((((((Trie.mkEmpty 0 : Trie Nat).add [1, 3]).1).add [1, 2]).1).add [1, 2]).1 =
       ((((Trie.mkEmpty 0 : Trie Nat).add [1, 3]).1).add [1, 2]).1 ∧
     ((((((Trie.mkEmpty 0 : Trie Nat).add [1, 3]).1).add [1, 2]).1).add [1, 2]).1.len =
       (((Trie.mkEmpty 0 : Trie Nat).add [1, 3]).1).len + 1) :=
  ⟨by decide, c4_add_idempotent (((Trie.mkEmpty 0 : Trie Nat).add [1, 3]).1) [1, 2] (by decide)⟩

/-- Witness for C5 at a concrete input: a Nat trie holding `[1, 2]`,
`[1]` and `[3]`, the identity sorter and joiner, fuel 5 and 10, and the
candidate value `[0, 1, 2]`. -/
theorem c5_witness :
    (∀ l : List Nat, ((fun l : List Nat => l) l).Perm l) ∧
    TrieNode.WF ((((Trie.mkEmpty 0 : Trie Nat).add [1, 2]).1.add [1]).1.add [3]).1.root = true ∧
    TrieNode.heightN ((((Trie.mkEmpty 0 : Trie Nat).add [1, 2]).1.add [1]).1.add [3]).1.root < 5 ∧
    TrieNode.nodeCount ((((Trie.mkEmpty 0 : Trie Nat).add [1, 2]).1.add [1]).1.add [3]).1.root ≤ 10 ∧
    ((([0, 1, 2] : List Nat) ∈
        ((((Trie.mkEmpty 0 : Trie Nat).add [1, 2]).1.add [1]).1.add [3]).1.iterList
          (fun l : List Nat => l) (fun l : List Nat => l) true 5 ↔
      ([0, 1, 2] : List Nat) ∈
        (TrieNode.specLeafPaths
          ((((Trie.mkEmpty 0 : Trie Nat).add [1, 2]).1.add [1]).1.add [3]).1.root []).map
          (fun l : List Nat => l)) ∧
     (([0, 1, 2] : List Nat) ∈
        ((((Trie.mkEmpty 0 : Trie Nat).add [1, 2]).1.add [1]).1.add [3]).1.iterList
          (fun l : List Nat => l) (fun l : List Nat => l) false 10 ↔
      ([0, 1, 2] : List Nat) ∈
        (TrieNode.specLeafPaths
          ((((Trie.mkEmpty 0 : Trie Nat).add [1, 2]).1.add [1]).1.add [3]).1.root []).map
          (fun l : List Nat => l))) :=
  ⟨fun l => List.Perm.refl l, by decide, by decide, by decide,
    c5_iteration_completeness ((((Trie.mkEmpty 0 : Trie Nat).add [1, 2]).1.add [1]).1.add [3]).1
      (fun l : List Nat => l) (fun l : List Nat => l) (fun l => List.Perm.refl l)
      (by decide) 5 10 (by decide) (by decide) [0, 1, 2]⟩

/-- Witness for C6 at concrete inputs: a Nat trie holding `[1, 2]`, the
absent path `[9]`, and the present non-leaf path `[1]`. -/
theorem c6_witness :
    (TrieNode.nodeAt (((Trie.mkEmpty 0 : Trie Nat).add [1, 2]).1).root [9] = none ∧
     ((((Trie.mkEmpty 0 : Trie Nat).add [1, 2]).1).remove [9]).2 = false ∧
     ((((Trie.mkEmpty 0 : Trie Nat).add [1, 2]).1).remove [9]).1 =
       ((Trie.mkEmpty 0 : Trie Nat).add [1, 2]).1 ∧
     ((((Trie.mkEmpty 0 : Trie Nat).add [1, 2]).1).containsB [9]).2 = false ∧
     ((((Trie.mkEmpty 0 : Trie Nat).add [1, 2]).1).containsB [9]).1 =
       ((Trie.mkEmpty 0 : Trie Nat).add [1, 2]).1) ∧
    (TrieNode.nodeAt (((Trie.mkEmpty 0 : Trie Nat).add [1, 2]).1).root [1] =
       some (TrieNode.mk 1 false (some [TrieNode.mk 2 true none])) ∧
     ((((Trie.mkEmpty 0 : Trie Nat).add [1, 2]).1).remove [1]).2 = false ∧
     ((((Trie.mkEmpty 0 : Trie Nat).add [1, 2]).1).remove [1]).1 =
       ((Trie.mkEmpty 0 : Trie Nat).add [1, 2]).1) :=
  ⟨⟨rfl, (c6_missing_path_no_mutation (((Trie.mkEmpty 0 : Trie Nat).add [1, 2]).1) [9]).1 rfl⟩,
   ⟨rfl, (c6_missing_path_no_mutation (((Trie.mkEmpty 0 : Trie Nat).add [1, 2]).1) [1]).2
      (TrieNode.mk 1 false (some [TrieNode.mk 2 true none])) rfl rfl⟩⟩

/-- Witness for C9 at a concrete parent descriptor. -/
theorem c9_witness :
    TrieNode.nodeReprFmt TrieNode.pyStrRepr "_TrieNode@139876543210"
        (TrieNode.mk "a" true (none : Option (List (TrieNode String)))) ≠
      TrieNode.nodeStr TrieNode.pyStrRepr
        (TrieNode.mk "a" true (none : Option (List (TrieNode String)))) :=
  c9_repr_not_key_marker "_TrieNode@139876543210"
